import Mathlib

/-! PiLasers: the crossing detector and the debouncer of `lasers.c`.

A shallow embedding of `numEntries`, `countZeros` and `main` from
`src/PiLasers/lasers.c`, and theorems about them.

Conventions of the embedding.

* A C `int` array is a `List Int` holding the elements of the buffer; reading an
  index outside the buffer is a fault (`Outcome.outOfBounds`), it is never given
  a value.
* C `int` locals are `Int`. Every counter of the two functions is bounded by the
  number of loop iterations, which is at most `size` (an `int`), so no
  arithmetic of the two functions can overflow and no reduction modulo `2^32`
  is needed.
* A loop is a recursive function on a fuel argument; the entry points give it
  more fuel than the loop can use, and running out is the separate outcome
  `Outcome.outOfFuel`.
* Every run records the indices of the array elements it reads, in order.
-/

namespace PiLasers

/-- The `enum EntryState` of `lasers.c` (line 22). -/
inductive EntryState where
  | ENTRY_START
  | BROKE_FIRST
  | BROKE_SECOND
  | CLEARED_FIRST
  | WRONG_WAY
  | EMPTY
  | ENTRY_DONE
  deriving DecidableEq, Repr

/-- The `enum State` of `lasers.c` (line 24). -/
inductive State where
  | START
  | DONE
  | GOT_KTH_ZERO
  | GOT_KTH_ONE
  | GOT_ZERO
  | GOT_ONE
  deriving DecidableEq, Repr

/-- How a call ends: it returns an `int`, it reads outside a buffer, or the
model runs out of fuel. -/
inductive Outcome where
  | ret (v : Int)
  | outOfBounds
  | outOfFuel
  deriving DecidableEq, Repr

/-- What a call does: its outcome and the indices it read, in order. An index
that was read outside the buffer is recorded too. -/
structure Run where
  outcome : Outcome
  reads : List Int
  deriving DecidableEq, Repr

/-- Prefix the reads `idxs`, made before the run `r`, to `r`. -/
def Run.after (idxs : List Int) (r : Run) : Run :=
  ⟨r.outcome, idxs ++ r.reads⟩

/-- The element `a[i]` of a buffer, `none` outside it. -/
def readAt (a : List Int) (i : Int) : Option Int :=
  if 0 ≤ i then a[i.toNat]? else none

/-! ## `numEntries` (lines 109-196) -/

/-- The `switch (entries)` of `numEntries` (lines 125-187) on the samples
`l1 = laser1[count]` and `l2 = laser2[count]`: the next state and entry count.
A C condition `x` is `x ≠ 0` and `!x` is `x = 0`. -/
def entrySwitch (entries : EntryState) (l1 l2 : Int) (entryCount : Int) :
    EntryState × Int :=
  match entries with
  | .ENTRY_START => (.EMPTY, entryCount)
  | .BROKE_FIRST =>
    if l2 = 0 ∧ l1 = 0 then (.BROKE_SECOND, entryCount)
    else if l1 ≠ 0 then (.EMPTY, entryCount)
    else (.BROKE_FIRST, entryCount)
  | .BROKE_SECOND =>
    if l1 ≠ 0 ∧ l2 = 0 then (.CLEARED_FIRST, entryCount)
    else if l1 = 0 ∧ l2 ≠ 0 then (.BROKE_FIRST, entryCount)
    else (.BROKE_SECOND, entryCount)
  | .CLEARED_FIRST =>
    if l2 ≠ 0 ∧ l1 ≠ 0 then (.EMPTY, entryCount + 1)
    else if l1 = 0 ∧ l2 = 0 then (.BROKE_SECOND, entryCount)
    else (.CLEARED_FIRST, entryCount)
  | .WRONG_WAY =>
    if l1 ≠ 0 ∧ l2 ≠ 0 then (.EMPTY, entryCount)
    else (.WRONG_WAY, entryCount)
  | .EMPTY =>
    let e1 := if l1 = 0 ∧ l2 ≠ 0 then EntryState.BROKE_FIRST else EntryState.EMPTY
    let e2 := if l1 ≠ 0 ∧ l2 = 0 then EntryState.WRONG_WAY else e1
    (e2, entryCount)
  | .ENTRY_DONE => (.ENTRY_DONE, entryCount)

/-- The `while (entries != ENTRY_DONE)` loop of `numEntries` (lines 120-193).
Line 121 reads `laser1[count]` and, unless that sample is already invalid,
`laser2[count]`; the switch reads the same two elements again. -/
def numEntriesLoop (laser1 laser2 : List Int) (size : Int) :
    Nat → EntryState → Int → Int → Run
  | 0, _, _, _ => ⟨.outOfFuel, []⟩
  | fuel + 1, entries, count, entryCount =>
    if entries = .ENTRY_DONE then ⟨.ret entryCount, []⟩
    else
      match readAt laser1 count with
      | none => ⟨.outOfBounds, [count]⟩
      | some a =>
        if a ≠ 0 ∧ a ≠ 1 then ⟨.ret (-1), [count]⟩
        else
          match readAt laser2 count with
          | none => ⟨.outOfBounds, [count, count]⟩
          | some b =>
            if b ≠ 0 ∧ b ≠ 1 then ⟨.ret (-1), [count, count]⟩
            else
              let next := entrySwitch entries a b entryCount
              let count1 := count + 1
              let entries1 := if count1 ≥ size then EntryState.ENTRY_DONE else next.1
              (numEntriesLoop laser1 laser2 size fuel entries1 count1 next.2).after
                [count, count]

/-- The run of `numEntries(laser1, laser2, size)` (lines 109-196). The loop body
runs `max size 1` times and the loop condition is tested once more, so
`size + 2` units of fuel are enough. -/
def numEntriesRun (laser1 laser2 : List Int) (size : Int) : Run :=
  if size < 0 then ⟨.ret (-1), []⟩
  else numEntriesLoop laser1 laser2 size (size.toNat + 2) .ENTRY_START 0 0

/-- The outcome of `numEntries(laser1, laser2, size)`. -/
def numEntries (laser1 laser2 : List Int) (size : Int) : Outcome :=
  (numEntriesRun laser1 laser2 size).outcome

/-! ## `countZeros` (lines 199-329) -/

/-- The local variables of `countZeros` (lines 201-206). -/
structure Locals where
  s : State
  zeroCount : Int
  oneCount : Int
  k1 : Int
  k0 : Int
  deriving DecidableEq, Repr

/-- The constant `kMax` of `countZeros` (line 202). -/
def kMax : Int := 10

/-- The `case START` of `countZeros` (lines 219-233); `v0` is `zeroOneData[0]`. -/
def startCase (v0 : Int) (L : Locals) : Locals :=
  if v0 = 0 then
    let k0 := L.k0 + 1
    if k0 > kMax then { L with k0 := k0, zeroCount := L.zeroCount + 1, s := .GOT_ZERO }
    else { L with k0 := k0, s := .GOT_KTH_ZERO }
  else if v0 = 1 then { L with k1 := L.k1 + 1, s := .GOT_ONE }
  else L

/-- The cases `GOT_KTH_ZERO`, `GOT_KTH_ONE`, `GOT_ZERO` and `GOT_ONE` of
`countZeros` (lines 234-301); `v` is `zeroOneData[i]`. Each case is two `if`
statements in a row, the second one run on the locals the first one left. -/
def liveCase (v : Int) (L : Locals) : Locals :=
  match L.s with
  | .GOT_KTH_ZERO =>
    let L1 : Locals :=
      if v = 0 then
        let k0 := L.k0 + 1
        if k0 > kMax then { L with k0 := k0, zeroCount := L.zeroCount + 1, s := .GOT_ZERO }
        else { L with k0 := k0, s := .GOT_KTH_ZERO }
      else L
    if v = 1 then
      if L1.k1 > kMax then { L1 with k0 := 1, s := .GOT_ONE }
      else { L1 with k0 := 1, s := .GOT_ONE }
    else L1
  | .GOT_KTH_ONE =>
    let L1 : Locals :=
      if v = 1 then
        let k1 := L.k1 + 1
        if k1 > kMax then { L with k1 := k1, oneCount := L.oneCount + 1, s := .GOT_ONE }
        else { L with k1 := k1, s := .GOT_KTH_ONE }
      else L
    if v = 0 then
      if L1.k0 > kMax then { L1 with k1 := 1, s := .GOT_ZERO }
      else { L1 with k1 := 1, s := .GOT_KTH_ZERO }
    else L1
  | .GOT_ZERO =>
    let L1 : Locals := if v = 0 then { L with s := .GOT_ZERO } else L
    if v = 1 then
      if kMax ≥ 1 then { L1 with s := .GOT_KTH_ONE, k1 := 1 }
      else { L1 with oneCount := L1.oneCount + 1, s := .GOT_ONE }
    else L1
  | .GOT_ONE =>
    let L1 : Locals := if v = 1 then { L with s := .GOT_ONE } else L
    if v = 0 then
      if kMax ≥ 1 then { L1 with s := .GOT_KTH_ZERO, k0 := 1 }
      else { L1 with zeroCount := L1.zeroCount + 1, s := .GOT_ZERO }
    else L1
  | .START => L
  | .DONE => L

/-- The value the `case DONE` of `countZeros` (lines 302-323) returns, from
`p1 = zeroOneData[i-1]`, `p2 = zeroOneData[i-2]` and `v = zeroOneData[i]`. -/
def doneCount (p1 p2 v : Int) (L : Locals) : Int :=
  let z1 := if p1 = 0 ∧ p2 ≠ 0 then (if kMax = 0 then L.zeroCount + 1 else L.zeroCount)
            else L.zeroCount
  if v = 0 then (if L.k0 + 1 > kMax ∧ p1 ≠ 0 then z1 + 1 else z1) else z1

/-- The indices the `case DONE` of `countZeros` reads when `zeroOneData[i-1]`
is `p1` and `zeroOneData[i]` is `v`: `&&` reads its right operand only when the
left one holds. -/
def doneReads (i p1 v : Int) (L : Locals) : List Int :=
  [i - 1] ++ (if p1 = 1 then [i - 2] else []) ++
  [i - 1] ++ (if p1 = 0 then [i - 2] else []) ++
  [i] ++ (if v = 1 ∧ L.k1 + 1 > kMax then [i - 1] else []) ++
  [i] ++ (if v = 0 ∧ L.k0 + 1 > kMax then [i - 1] else [])

/-- The `case DONE` of `countZeros` (lines 302-323), which returns. -/
def doneCase (zeroOneData : List Int) (i v : Int) (L : Locals) : Run :=
  match readAt zeroOneData (i - 1) with
  | none => ⟨.outOfBounds, [i - 1]⟩
  | some p1 =>
    if p1 = 1 ∨ p1 = 0 then
      match readAt zeroOneData (i - 2) with
      | none => ⟨.outOfBounds, [i - 1, i - 2]⟩
      | some p2 => ⟨.ret (doneCount p1 p2 v L), doneReads i p1 v L⟩
    else ⟨.ret (doneCount p1 0 v L), doneReads i p1 v L⟩

/-- The `for` loop of `countZeros` (lines 213-325) and the `return` after it.
Line 215 reads `zeroOneData[i]`; the cases read the same element again, and
`case START` reads `zeroOneData[0]`. -/
def countZerosLoop (zeroOneData : List Int) (numSamples : Int) :
    Nat → Int → Locals → Run
  | 0, _, _ => ⟨.outOfFuel, []⟩
  | fuel + 1, i, L =>
    if i < numSamples then
      match readAt zeroOneData i with
      | none => ⟨.outOfBounds, [i]⟩
      | some v =>
        if v ≠ 1 ∧ v ≠ 0 then ⟨.ret (-1), [i]⟩
        else
          match L.s with
          | .START =>
            match readAt zeroOneData 0 with
            | none => ⟨.outOfBounds, [i, 0]⟩
            | some v0 =>
              (countZerosLoop zeroOneData numSamples fuel (i + 1) (startCase v0 L)).after
                [i, 0]
          | .DONE => (doneCase zeroOneData i v L).after [i]
          | _ =>
            (countZerosLoop zeroOneData numSamples fuel (i + 1) (liveCase v L)).after [i]
    else ⟨.ret L.zeroCount, []⟩

/-- The run of `countZeros(zeroOneData, numSamples)` (lines 199-329). The loop
condition is tested `numSamples + 1` times. -/
def countZerosRun (zeroOneData : List Int) (numSamples : Int) : Run :=
  if kMax < 0 then ⟨.ret (-1), []⟩
  else if numSamples ≤ 0 then ⟨.ret (-1), []⟩
  else countZerosLoop zeroOneData numSamples (numSamples.toNat + 1) 0 ⟨.START, 0, 0, 0, 0⟩

/-- The outcome of `countZeros(zeroOneData, numSamples)`. -/
def countZeros (zeroOneData : List Int) (numSamples : Int) : Outcome :=
  (countZerosRun zeroOneData numSamples).outcome

/-! ## The debouncer as the spec describes it (section 4.1), and with hysteresis -/

/-- The phases of the debouncer of spec section 4.1. -/
inductive Phase where
  | AwaitingFirstRun
  | AccumulatingBlockedRun
  | AccumulatingClearRun
  | ConfirmedBlocked
  | ConfirmedClear
  deriving DecidableEq, Repr

/-- The `DebounceState` of spec section 3: the phase, the run counter of each
polarity and the confirmed count of each polarity. -/
structure DebounceState where
  phase : Phase
  blockedRun : Nat
  clearRun : Nat
  blockedCount : Nat
  clearCount : Nat
  deriving DecidableEq, Repr

/-- The state before the first sample. -/
def DebounceState.init : DebounceState := ⟨.AwaitingFirstRun, 0, 0, 0, 0⟩

/-- One sample through the FSM of spec section 4.1, written from steps 1-4 of
the spec: sample 0 is blocked, any other sample is clear. Step 1 seeds the run
of the first sample; step 2 lengthens a run and confirms it when it exceeds `K`;
steps 3 and 4 restart accumulation at run length 1 on a sample of the opposite
polarity, from an accumulating and from a confirmed phase alike. -/
def specStep (K : Nat) (st : DebounceState) (v : Int) : DebounceState :=
  match st.phase with
  | .AwaitingFirstRun =>
    if v = 0 then
      if 1 > K then
        { st with phase := .ConfirmedBlocked, blockedRun := 1, blockedCount := st.blockedCount + 1 }
      else { st with phase := .AccumulatingBlockedRun, blockedRun := 1 }
    else
      if 1 > K then
        { st with phase := .ConfirmedClear, clearRun := 1, clearCount := st.clearCount + 1 }
      else { st with phase := .AccumulatingClearRun, clearRun := 1 }
  | .AccumulatingBlockedRun =>
    if v = 0 then
      if st.blockedRun + 1 > K then
        { st with phase := .ConfirmedBlocked, blockedRun := st.blockedRun + 1,
                  blockedCount := st.blockedCount + 1 }
      else { st with blockedRun := st.blockedRun + 1 }
    else { st with phase := .AccumulatingClearRun, clearRun := 1 }
  | .AccumulatingClearRun =>
    if v = 0 then { st with phase := .AccumulatingBlockedRun, blockedRun := 1 }
    else
      if st.clearRun + 1 > K then
        { st with phase := .ConfirmedClear, clearRun := st.clearRun + 1,
                  clearCount := st.clearCount + 1 }
      else { st with clearRun := st.clearRun + 1 }
  | .ConfirmedBlocked =>
    if v = 0 then st else { st with phase := .AccumulatingClearRun, clearRun := 1 }
  | .ConfirmedClear =>
    if v = 0 then { st with phase := .AccumulatingBlockedRun, blockedRun := 1 } else st

/-- The blocked count of the FSM of spec section 4.1 after the whole trace
(step 5). -/
def specDebounce (K : Nat) (trace : List Int) : Nat :=
  (trace.foldl (specStep K) DebounceState.init).blockedCount

/-- One sample through the debouncer with hysteresis. It differs from
`specStep` in two places: a clear first sample confirms clear at once, and a
sample of the opposite polarity that arrives while a run is accumulating gives
the run up and confirms the polarity of that sample, without counting. -/
def hystStep (K : Nat) (st : DebounceState) (v : Int) : DebounceState :=
  match st.phase with
  | .AwaitingFirstRun =>
    if v = 0 then
      if 1 > K then
        { st with phase := .ConfirmedBlocked, blockedRun := 1, blockedCount := st.blockedCount + 1 }
      else { st with phase := .AccumulatingBlockedRun, blockedRun := 1 }
    else { st with phase := .ConfirmedClear, clearRun := 1 }
  | .AccumulatingBlockedRun =>
    if v = 0 then
      if st.blockedRun + 1 > K then
        { st with phase := .ConfirmedBlocked, blockedRun := st.blockedRun + 1,
                  blockedCount := st.blockedCount + 1 }
      else { st with blockedRun := st.blockedRun + 1 }
    else { st with phase := .ConfirmedClear }
  | .AccumulatingClearRun =>
    if v = 0 then { st with phase := .ConfirmedBlocked }
    else
      if st.clearRun + 1 > K then
        { st with phase := .ConfirmedClear, clearRun := st.clearRun + 1,
                  clearCount := st.clearCount + 1 }
      else { st with clearRun := st.clearRun + 1 }
  | .ConfirmedBlocked =>
    if v = 0 then st else { st with phase := .AccumulatingClearRun, clearRun := 1 }
  | .ConfirmedClear =>
    if v = 0 then { st with phase := .AccumulatingBlockedRun, blockedRun := 1 } else st

/-- The blocked count of the debouncer with hysteresis after the whole trace. -/
def hystDebounce (K : Nat) (trace : List Int) : Nat :=
  (trace.foldl (hystStep K) DebounceState.init).blockedCount

/-- The lengths of the maximal runs of consecutive 0s of a trace, in order,
when `cur` 0s stand just before the trace and count into its first run. -/
def zeroRunsFrom : Nat → List Int → List Nat
  | cur, [] => if cur = 0 then [] else [cur]
  | cur, v :: rest =>
    if v = 0 then zeroRunsFrom (cur + 1) rest
    else (if cur = 0 then [] else [cur]) ++ zeroRunsFrom 0 rest

/-- The lengths of the maximal runs of consecutive 0s of a trace, in order. -/
def zeroRuns (trace : List Int) : List Nat := zeroRunsFrom 0 trace

/-- The number of maximal runs of consecutive 0s of length at least 11. -/
def longZeroRuns (trace : List Int) : Nat :=
  (zeroRuns trace).countP (fun n => decide (11 ≤ n))

/-! ## Scans, folds and predicates used in the proofs -/

/-- A sample is valid when it is 0 or 1 (the tests of lines 121 and 215). -/
def Valid01 (l : List Int) : Prop := ∀ x ∈ l, x = 0 ∨ x = 1

instance (l : List Int) : Decidable (Valid01 l) := by
  unfold Valid01; infer_instance

/-- The loop of `numEntries` over the remaining pairs of samples: the sentinel
-1 at the first invalid pair, the entry count when the pairs are used up. -/
def entryScan : EntryState → Int → List (Int × Int) → Int
  | _, entryCount, [] => entryCount
  | entries, entryCount, (a, b) :: rest =>
    if (a ≠ 0 ∧ a ≠ 1) ∨ (b ≠ 0 ∧ b ≠ 1) then -1
    else entryScan (entrySwitch entries a b entryCount).1 (entrySwitch entries a b entryCount).2 rest

/-- The switch of `numEntries` folded over pairs of samples. -/
def entryFold (st : EntryState × Int) (samples : List (Int × Int)) : EntryState × Int :=
  samples.foldl (fun st p => entrySwitch st.1 p.1 p.2 st.2) st

/-- Both samples of every pair are 0 or 1. -/
def ValidPairs (samples : List (Int × Int)) : Prop :=
  ∀ p ∈ samples, (p.1 = 0 ∨ p.1 = 1) ∧ (p.2 = 0 ∨ p.2 = 1)

/-- Some sample of `l` at an index below `n` is neither 0 nor 1. -/
def HasInvalidBelow (l : List Int) (n : Int) : Prop :=
  ∃ i : Nat, (i : Int) < n ∧ ∃ x, l[i]? = some x ∧ x ≠ 0 ∧ x ≠ 1

/-- The loop of `countZeros` over the remaining samples, once the state has
left `START`: the sentinel -1 at the first invalid sample, `zeroCount` when the
samples are used up. -/
def zeroScan : Locals → List Int → Int
  | L, [] => L.zeroCount
  | L, v :: rest => if v ≠ 1 ∧ v ≠ 0 then -1 else zeroScan (liveCase v L) rest

/-- The cases of `countZeros` folded over samples. -/
def zeroFold (L : Locals) (samples : List Int) : Locals :=
  samples.foldl (fun L v => liveCase v L) L

/-- The state is one of `GOT_KTH_ZERO`, `GOT_KTH_ONE`, `GOT_ZERO`, `GOT_ONE`. -/
def Locals.Live (L : Locals) : Prop := L.s ≠ .START ∧ L.s ≠ .DONE

/-- The locals of `countZeros` before the loop (lines 201-206). -/
def initLocals : Locals := ⟨.START, 0, 0, 0, 0⟩

/-! ## Crossing patterns -/

/-- The lengths of the five phases of one crossing: both beams clear, first
blocked, both blocked, second blocked, both clear. -/
structure Pattern where
  a : Nat
  b : Nat
  c : Nat
  d : Nat
  e : Nat
  deriving DecidableEq, Repr

/-- Every phase of the pattern lasts at least one sample. -/
def Pattern.Pos (p : Pattern) : Prop :=
  1 ≤ p.a ∧ 1 ≤ p.b ∧ 1 ≤ p.c ∧ 1 ≤ p.d ∧ 1 ≤ p.e

instance (p : Pattern) : Decidable p.Pos := by
  unfold Pattern.Pos; infer_instance

/-- The sample pairs (first, second) of one crossing pattern. -/
def Pattern.samples (p : Pattern) : List (Int × Int) :=
  List.replicate p.a (1, 1) ++ List.replicate p.b (0, 1) ++ List.replicate p.c (0, 0) ++
    List.replicate p.d (1, 0) ++ List.replicate p.e (1, 1)

/-- The sample pairs of a sequence of crossing patterns, one after the other. -/
def crossings : List Pattern → List (Int × Int)
  | [] => []
  | p :: ps => p.samples ++ crossings ps

/-! ## Invariants and simulation relations -/

/-- The locals of `countZeros` after the samples `p` as long as no break has
been confirmed, and what is known once one has. -/
def BreakInv (p : List Int) (L : Locals) : Prop :=
  (L.zeroCount = 0 ∧ ¬ (List.replicate 11 (0 : Int) <:+: p) ∧
    ((L.s = .GOT_ONE ∧ ¬ (List.replicate 1 (0 : Int) <:+ p)) ∨
     (L.s = .GOT_KTH_ZERO ∧ ∃ k : Nat, L.k0 = (k : Int) ∧ 1 ≤ k ∧ k ≤ 10 ∧
        List.replicate k (0 : Int) <:+ p ∧ ¬ (List.replicate (k + 1) (0 : Int) <:+ p)))) ∨
  (1 ≤ L.zeroCount ∧ List.replicate 11 (0 : Int) <:+: p)

/-- The number of maximal runs of at least 11 consecutive 0s when `cur` 0s stand
just before the trace. -/
def longFrom (cur : Nat) (d : List Int) : Nat :=
  (zeroRunsFrom cur d).countP (fun n => decide (11 ≤ n))

/-- How `cur`, the number of 0s just before the remaining samples, matches a
state of the FSM of spec section 4.1. -/
def SpecRel (S : DebounceState) (cur : Nat) : Prop :=
  match S.phase with
  | .AccumulatingBlockedRun => S.blockedRun = cur ∧ 1 ≤ cur ∧ cur ≤ 10
  | .ConfirmedBlocked => 11 ≤ cur
  | _ => cur = 0

/-- How `cur`, the number of 0s just before the remaining samples, matches a
state of the debouncer with hysteresis. A confirmed break may go on over 0s
that follow a short burst of 1s, so `cur` is free in `ConfirmedBlocked`. -/
def HystRel (S : DebounceState) (cur : Nat) : Prop :=
  match S.phase with
  | .AccumulatingBlockedRun => S.blockedRun = cur ∧ 1 ≤ cur ∧ cur ≤ 10
  | .ConfirmedBlocked => True
  | _ => cur = 0

/-- No confirmed break of the trace is interrupted by a short burst of clear
samples: nowhere in the trace do 11 0s, then between 1 and 10 1s, then a 0
follow one another. -/
def NoShortBurst (trace : List Int) : Prop :=
  ∀ m : Nat, 1 ≤ m → m ≤ 10 →
    ¬ (List.replicate 11 (0 : Int) ++ List.replicate m (1 : Int) ++ [0] <:+: trace)

/-- What the state of the debouncer with hysteresis says about the samples `p`
consumed so far, and how `cur` matches it. -/
def HystInv (p : List Int) (S : DebounceState) (cur : Nat) : Prop :=
  match S.phase with
  | .AwaitingFirstRun => cur = 0
  | .ConfirmedClear => cur = 0
  | .AccumulatingBlockedRun =>
    S.blockedRun = cur ∧ 1 ≤ cur ∧ cur ≤ 10 ∧ List.replicate cur (0 : Int) <:+ p
  | .ConfirmedBlocked => 11 ≤ cur ∧ List.replicate 11 (0 : Int) <:+ p
  | .AccumulatingClearRun =>
    cur = 0 ∧ 1 ≤ S.clearRun ∧ S.clearRun ≤ 10 ∧
      List.replicate 11 (0 : Int) ++ List.replicate S.clearRun (1 : Int) <:+ p

/-- The locals of `countZeros` seen as a state of the debouncer with
hysteresis: `GOT_ONE` is confirmed clear, `GOT_KTH_ZERO` accumulates a blocked
run of `k0` samples, `GOT_ZERO` is confirmed blocked and `GOT_KTH_ONE`
accumulates a clear run of `k1` samples; `k0` stays above `kMax` for as long as a
break is confirmed. -/
def Sim (L : Locals) (S : DebounceState) : Prop :=
  L.zeroCount = (S.blockedCount : Int) ∧
  match L.s with
  | .GOT_ONE => S.phase = .ConfirmedClear
  | .GOT_KTH_ZERO => S.phase = .AccumulatingBlockedRun ∧ L.k0 = (S.blockedRun : Int)
  | .GOT_ZERO => S.phase = .ConfirmedBlocked ∧ L.k0 > kMax
  | .GOT_KTH_ONE => S.phase = .AccumulatingClearRun ∧ L.k1 = (S.clearRun : Int) ∧ L.k0 > kMax
  | _ => False

/-- The state and the entry count of `numEntries` after the first `j` pairs of
samples of valid traces. -/
def entryAfter (first second : List Int) (j : Nat) : EntryState × Int :=
  entryFold (.ENTRY_START, 0) ((first.zip second).take j)

/-! ## `main` (lines 331-363) -/

/-- What a run of `main` did: the four arguments of its call of
`outputMessage`, if it made one, and the value it returned. -/
structure MainRun where
  report : Option (Int × Int × Int × Int)
  exitCode : Int
  deriving DecidableEq, Repr

/-- The two arrays after `recordLasers` (lines 96-105) on arrays of
`timeLimit * 100` elements: element `i` of each is what `laserDiodeStatus`
returned for its diode at tick `i`, which is 0, 1 or, on an error, -1. -/
def recordLasers (diode1 diode2 : Nat → Int) (timeLimit : Int) : List Int × List Int :=
  ((List.range (timeLimit * 100).toNat).map diode1, (List.range (timeLimit * 100).toNat).map diode2)

/-- The function `main` (lines 331-363): `timeLimit` is `atoi(argv[1])` and
`diode1 i`, `diode2 i` are the readings of `laserDiodeStatus` at tick `i`. The
result is `none` when one of the four analysis calls does not return (it reads
outside its array). `timeLimit * 100` is taken not to overflow. -/
def main (argc : Int) (timeLimit : Int) (diode1 diode2 : Nat → Int) : Option MainRun :=
  if argc < 2 then some ⟨none, -1⟩
  else
    let size := timeLimit * 100
    let lasers := recordLasers diode1 diode2 timeLimit
    match countZeros lasers.1 size, countZeros lasers.2 size,
      numEntries lasers.1 lasers.2 size, numEntries lasers.2 lasers.1 size with
    | .ret laser1Count, .ret laser2Count, .ret numIn, .ret numOut =>
      some ⟨some (laser1Count, laser2Count, numIn, numOut), 0⟩
    | _, _, _, _ => none

/-! ## The two-sided hysteresis filter -/

/-- The state of a two-sided hysteresis filter over a 0/1 trace: whether the
filter is in the blocked state, the numbers of consecutive 0s and of consecutive
1s just seen, and the number of clear-to-blocked flips so far. -/
structure FilterState where
  blocked : Bool
  zeros : Nat
  ones : Nat
  flips : Nat
  deriving DecidableEq, Repr

/-- One sample through the filter: a clear filter flips to blocked on the 11th
consecutive 0, a blocked filter flips back to clear on the 11th consecutive 1,
and nothing else changes the state of the filter. -/
def filterStep (st : FilterState) (v : Int) : FilterState :=
  if v = 0 then
    if st.blocked = false ∧ st.zeros + 1 = 11 then ⟨true, st.zeros + 1, 0, st.flips + 1⟩
    else ⟨st.blocked, st.zeros + 1, 0, st.flips⟩
  else
    if st.blocked = true ∧ st.ones + 1 = 11 then ⟨false, 0, st.ones + 1, st.flips⟩
    else ⟨st.blocked, 0, st.ones + 1, st.flips⟩

/-- The number of clear-to-blocked flips of the filter, started in the clear
state, over a trace. -/
def hysteresisFlips (trace : List Int) : Nat :=
  (trace.foldl filterStep ⟨false, 0, 0, 0⟩).flips

/-- How a state of the filter matches a state of the debouncer with
hysteresis. -/
def FilterRel (S : DebounceState) (F : FilterState) : Prop :=
  F.flips = S.blockedCount ∧
  match S.phase with
  | .AwaitingFirstRun => F.blocked = false ∧ F.zeros = 0
  | .ConfirmedClear => F.blocked = false ∧ F.zeros = 0
  | .AccumulatingBlockedRun => F.blocked = false ∧ F.zeros = S.blockedRun ∧ S.blockedRun ≤ 10
  | .ConfirmedBlocked => F.blocked = true ∧ F.ones = 0
  | .AccumulatingClearRun => F.blocked = true ∧ F.ones = S.clearRun ∧ S.clearRun ≤ 10

/-! ## The loop heads of `countZeros` -/

/-- The values of `i` and of the locals each time the `for` loop of
`countZeros` (lines 213-325) tests its condition, in order; the function follows
`countZerosLoop` branch by branch. -/
def countZerosHeads (zeroOneData : List Int) (numSamples : Int) :
    Nat → Int → Locals → List (Int × Locals)
  | 0, _, _ => []
  | fuel + 1, i, L =>
    (i, L) ::
      if i < numSamples then
        match readAt zeroOneData i with
        | none => []
        | some v =>
          if v ≠ 1 ∧ v ≠ 0 then []
          else
            match L.s with
            | .START =>
              match readAt zeroOneData 0 with
              | none => []
              | some v0 => countZerosHeads zeroOneData numSamples fuel (i + 1) (startCase v0 L)
            | .DONE => []
            | _ => countZerosHeads zeroOneData numSamples fuel (i + 1) (liveCase v L)
      else []

/-- The loop heads of a call `countZeros(zeroOneData, numSamples)`: none when
the call returns before the loop. -/
def countZerosHeadsRun (zeroOneData : List Int) (numSamples : Int) : List (Int × Locals) :=
  if kMax < 0 then []
  else if numSamples ≤ 0 then []
  else countZerosHeads zeroOneData numSamples (numSamples.toNat + 1) 0 ⟨.START, 0, 0, 0, 0⟩

/-! ## Crossings as index quadruples -/

/-- Four indices of a trace pair. -/
structure Quad where
  i : Nat
  j : Nat
  k : Nat
  m : Nat
  deriving DecidableEq, Repr

/-- The quadruple `q` is a completed first-to-second crossing of the traces:
its indices are at least 1 and strictly increasing, and the samples
(first, second) are (0,1) at `i`, (0,0) at `j`, (1,0) at `k` and (1,1) at `m`. -/
def IsCrossing (first second : List Int) (q : Quad) : Prop :=
  1 ≤ q.i ∧ q.i < q.j ∧ q.j < q.k ∧ q.k < q.m ∧
  first[q.i]? = some 0 ∧ second[q.i]? = some 1 ∧
  first[q.j]? = some 0 ∧ second[q.j]? = some 0 ∧
  first[q.k]? = some 1 ∧ second[q.k]? = some 0 ∧
  first[q.m]? = some 1 ∧ second[q.m]? = some 1

/-- What a state of `numEntries` after `n` pairs of samples says about the
samples since the last counted crossing of `qs`: the part of a crossing that has
been seen so far. -/
def Pending (first second : List Int) (qs : List Quad) (n : Nat) : EntryState → Prop
  | .ENTRY_START => n = 0
  | .EMPTY => 1 ≤ n
  | .WRONG_WAY => 1 ≤ n
  | .BROKE_FIRST =>
    ∃ i, (∀ q ∈ qs, q.m < i) ∧ 1 ≤ i ∧ i < n ∧ first[i]? = some 0 ∧ second[i]? = some 1
  | .BROKE_SECOND =>
    ∃ i j, (∀ q ∈ qs, q.m < i) ∧ 1 ≤ i ∧ i < j ∧ j < n ∧
      first[i]? = some 0 ∧ second[i]? = some 1 ∧ first[j]? = some 0 ∧ second[j]? = some 0
  | .CLEARED_FIRST =>
    ∃ i j k, (∀ q ∈ qs, q.m < i) ∧ 1 ≤ i ∧ i < j ∧ j < k ∧ k < n ∧
      first[i]? = some 0 ∧ second[i]? = some 1 ∧ first[j]? = some 0 ∧ second[j]? = some 0 ∧
      first[k]? = some 1 ∧ second[k]? = some 0
  | .ENTRY_DONE => False

/-- The entry count after `n` pairs of samples is the number of crossings of a
list of quadruples that lie one after the other below index `n`. -/
def CrossInv (first second : List Int) (n : Nat) (st : EntryState × Int) : Prop :=
  ∃ qs : List Quad, st.2 = (qs.length : Int) ∧ qs.Pairwise (fun p q => p.m < q.i) ∧
    (∀ q ∈ qs, IsCrossing first second q ∧ q.m < n) ∧ Pending first second qs n st.1

/-- The forward and the swapped machine of `numEntries` are not both past the
second beam: not both in `CLEARED_FIRST`, and not one in `CLEARED_FIRST` with
the other in `BROKE_SECOND`. -/
def NotBothCleared (fwd swp : EntryState) : Prop :=
  ¬ (fwd = .CLEARED_FIRST ∧ swp = .CLEARED_FIRST) ∧
  ¬ (fwd = .CLEARED_FIRST ∧ swp = .BROKE_SECOND) ∧
  ¬ (fwd = .BROKE_SECOND ∧ swp = .CLEARED_FIRST)

/-- Whether the two-sided hysteresis filter, started in the clear state, is in
the blocked state after the samples `pre`. -/
def filterBlockedAfter (pre : List Int) : Bool :=
  (pre.foldl filterStep ⟨false, 0, 0, 0⟩).blocked

/-! ## The loop of `numEntries` as a scan of the sample pairs -/

theorem readAt_natCast (l : List Int) (c : Nat) : readAt l (c : Int) = l[c]? := by
  simp [readAt]

theorem entrySwitch_ne_done (e : EntryState) (a b cnt : Int) (he : e ≠ .ENTRY_DONE) :
    (entrySwitch e a b cnt).1 ≠ .ENTRY_DONE := by
  cases e <;> simp [entrySwitch] at he ⊢ <;> split_ifs <;> simp

theorem numEntriesLoop_outcome (l1 l2 : List Int) (hlen : l1.length = l2.length) :
    ∀ (n fuel c : Nat) (e : EntryState) (cnt : Int),
      e ≠ .ENTRY_DONE → c + (n + 1) = l1.length → n + 2 ≤ fuel →
      (numEntriesLoop l1 l2 (l1.length : Int) fuel e (c : Int) cnt).outcome
        = .ret (entryScan e cnt ((l1.drop c).zip (l2.drop c))) := by
  intro n
  induction n with
  | zero =>
    intro fuel c e cnt he hc hf
    obtain ⟨f, rfl⟩ : ∃ f, fuel = f + 2 := ⟨fuel - 2, by omega⟩
    have hc1 : c < l1.length := by omega
    have hc2 : c < l2.length := by omega
    have hd1 : l1.drop (c + 1) = [] := List.drop_eq_nil_of_le (by omega)
    rw [List.drop_eq_getElem_cons hc1, List.drop_eq_getElem_cons hc2, List.zip_cons_cons, hd1]
    simp only [numEntriesLoop, readAt_natCast, List.getElem?_eq_getElem hc1,
      List.getElem?_eq_getElem hc2, if_neg he, entryScan, List.zip_nil_left]
    by_cases hv1 : l1[c] ≠ 0 ∧ l1[c] ≠ 1
    · simp [hv1]
    · by_cases hv2 : l2[c] ≠ 0 ∧ l2[c] ≠ 1
      · simp [hv1, hv2]
      · have hge : (c : Int) + 1 ≥ (l1.length : Int) := by omega
        simp [hv1, hv2, hge, Run.after]
  | succ n ih =>
    intro fuel c e cnt he hc hf
    obtain ⟨f, rfl⟩ : ∃ f, fuel = f + 1 := ⟨fuel - 1, by omega⟩
    have hc1 : c < l1.length := by omega
    have hc2 : c < l2.length := by omega
    rw [List.drop_eq_getElem_cons hc1, List.drop_eq_getElem_cons hc2, List.zip_cons_cons]
    simp only [numEntriesLoop, readAt_natCast, List.getElem?_eq_getElem hc1,
      List.getElem?_eq_getElem hc2, if_neg he, entryScan]
    by_cases hv1 : l1[c] ≠ 0 ∧ l1[c] ≠ 1
    · simp [hv1]
    · by_cases hv2 : l2[c] ≠ 0 ∧ l2[c] ≠ 1
      · simp [hv1, hv2]
      · have hge : ¬ ((c : Int) + 1 ≥ (l1.length : Int)) := by omega
        have := ih f (c + 1) (entrySwitch e l1[c] l2[c] cnt).1 (entrySwitch e l1[c] l2[c] cnt).2
          (entrySwitch_ne_done _ _ _ _ he) (by omega) (by omega)
        simp only [Nat.cast_add, Nat.cast_one] at this
        simp [hv1, hv2, hge, Run.after, this]

theorem numEntriesLoop_reads (l1 l2 : List Int) (hlen : l1.length = l2.length) :
    ∀ (fuel c : Nat) (e : EntryState) (cnt : Int), (e = .ENTRY_DONE ∨ c < l1.length) →
      ∀ r ∈ (numEntriesLoop l1 l2 (l1.length : Int) fuel e (c : Int) cnt).reads,
        (c : Int) ≤ r ∧ r < (l1.length : Int) := by
  intro fuel
  induction fuel with
  | zero => intro c e cnt _ r hr; simp [numEntriesLoop] at hr
  | succ f ih =>
    intro c e cnt hc r hr
    by_cases he : e = .ENTRY_DONE
    · simp [numEntriesLoop, he] at hr
    · have hc1 : c < l1.length := by tauto
      have hc2 : c < l2.length := by omega
      simp only [numEntriesLoop, readAt_natCast, List.getElem?_eq_getElem hc1,
        List.getElem?_eq_getElem hc2, if_neg he] at hr
      have hself : (c : Int) ≤ (c : Int) ∧ (c : Int) < (l1.length : Int) := ⟨le_refl _, by omega⟩
      split_ifs at hr with hv1 hv2 hge
      · simp only [List.mem_singleton] at hr
        rw [hr]; exact hself
      · simp only [List.mem_cons, List.mem_singleton, List.not_mem_nil, or_false, or_self] at hr
        rw [hr]; exact hself
      · simp only [Run.after, List.mem_append, List.mem_cons, List.mem_singleton,
          List.not_mem_nil, or_false, or_self] at hr
        rcases hr with hr | hr
        · rw [hr]; exact hself
        · have := ih (c + 1) .ENTRY_DONE _ (Or.inl rfl) r (by simpa using hr)
          simp only [Nat.cast_add, Nat.cast_one] at this
          omega
      · simp only [Run.after, List.mem_append, List.mem_cons, List.mem_singleton,
          List.not_mem_nil, or_false, or_self] at hr
        rcases hr with hr | hr
        · rw [hr]; exact hself
        · have := ih (c + 1) _ _ (Or.inr (by omega)) r (by simpa using hr)
          simp only [Nat.cast_add, Nat.cast_one] at this
          omega

/-- On traces of `size ≥ 1` samples every index `numEntries` reads is in
`[0, size)`. -/
theorem numEntries_reads_in_bounds (l1 l2 : List Int) (size : Int) (hsize : 1 ≤ size)
    (h1 : (l1.length : Int) = size) (h2 : (l2.length : Int) = size) :
    ∀ r ∈ (numEntriesRun l1 l2 size).reads, 0 ≤ r ∧ r < size := by
  subst h1
  have hneg : ¬ ((l1.length : Int) < 0) := by omega
  intro r hr
  simp only [numEntriesRun, if_neg hneg] at hr
  have := numEntriesLoop_reads l1 l2 (by omega) _ 0 .ENTRY_START 0 (Or.inr (by omega)) r
    (by simpa using hr)
  simpa using this

theorem entrySwitch_count_le (e : EntryState) (a b cnt : Int) :
    cnt ≤ (entrySwitch e a b cnt).2 := by
  cases e <;> simp only [entrySwitch] <;> (try split_ifs) <;> simp

theorem entryFold_nil (st : EntryState × Int) : entryFold st [] = st := rfl

theorem entryFold_cons (st : EntryState × Int) (p : Int × Int) (rest : List (Int × Int)) :
    entryFold st (p :: rest) = entryFold (entrySwitch st.1 p.1 p.2 st.2) rest := rfl

theorem entryFold_append (st : EntryState × Int) (xs ys : List (Int × Int)) :
    entryFold st (xs ++ ys) = entryFold (entryFold st xs) ys := by
  simp [entryFold, List.foldl_append]

theorem entryFold_count_le (samples : List (Int × Int)) :
    ∀ st : EntryState × Int, st.2 ≤ (entryFold st samples).2 := by
  induction samples with
  | nil => intro st; simp [entryFold_nil]
  | cons p rest ih =>
    intro st
    rw [entryFold_cons]
    exact le_trans (entrySwitch_count_le _ _ _ _) (ih _)

theorem entryScan_of_valid (samples : List (Int × Int)) :
    ∀ (e : EntryState) (cnt : Int), ValidPairs samples →
      entryScan e cnt samples = (entryFold (e, cnt) samples).2 := by
  induction samples with
  | nil => intro e cnt _; rfl
  | cons p rest ih =>
    intro e cnt hv
    obtain ⟨a, b⟩ := p
    have hp := hv (a, b) (List.mem_cons_self _ _)
    have hrest : ValidPairs rest := fun q hq => hv q (List.mem_cons_of_mem _ hq)
    have hok : ¬ ((a ≠ 0 ∧ a ≠ 1) ∨ (b ≠ 0 ∧ b ≠ 1)) := by
      simp only [] at hp
      rcases hp with ⟨ha | ha, hb | hb⟩ <;> simp [ha, hb]
    rw [entryScan, if_neg hok, entryFold_cons, ih _ _ hrest]

theorem entryScan_of_invalid (samples : List (Int × Int)) :
    ∀ (e : EntryState) (cnt : Int), ¬ ValidPairs samples → entryScan e cnt samples = -1 := by
  induction samples with
  | nil => intro e cnt hv; exact absurd (fun p hp => by simp at hp) hv
  | cons p rest ih =>
    intro e cnt hv
    obtain ⟨a, b⟩ := p
    by_cases hbad : (a ≠ 0 ∧ a ≠ 1) ∨ (b ≠ 0 ∧ b ≠ 1)
    · rw [entryScan, if_pos hbad]
    · rw [entryScan, if_neg hbad]
      apply ih
      intro hrest
      apply hv
      intro q hq
      rcases List.mem_cons.1 hq with rfl | hq
      · simp only [not_or, not_and_or, not_not] at hbad
        exact hbad
      · exact hrest q hq

theorem validPairs_zip (l1 l2 : List Int) (hlen : l1.length = l2.length) :
    ValidPairs (l1.zip l2) ↔ Valid01 l1 ∧ Valid01 l2 := by
  induction l1 generalizing l2 with
  | nil =>
    cases l2 with
    | nil => simp [ValidPairs, Valid01]
    | cons y ys => simp at hlen
  | cons x xs ih =>
    cases l2 with
    | nil => simp at hlen
    | cons y ys =>
      have hlen2 : xs.length = ys.length := by simpa using hlen
      have := ih ys hlen2
      simp only [ValidPairs, Valid01, List.zip_cons_cons, List.mem_cons, forall_eq_or_imp] at this ⊢
      rw [this]
      tauto

theorem not_valid01_iff (l : List Int) (n : Int) (hn : (l.length : Int) = n) :
    ¬ Valid01 l ↔ HasInvalidBelow l n := by
  constructor
  · intro h
    simp only [Valid01, not_forall] at h
    obtain ⟨x, hx, hbad⟩ := h
    obtain ⟨i, hi, rfl⟩ := List.mem_iff_getElem.1 hx
    refine ⟨i, by omega, l[i], List.getElem?_eq_getElem hi, ?_⟩
    simpa [not_or] using hbad
  · rintro ⟨i, hi, x, hx, h0, h1⟩ hv
    have hmem : x ∈ l := List.mem_iff_getElem?.2 ⟨i, hx⟩
    rcases hv x hmem with h | h
    · exact h0 h
    · exact h1 h

/-- On traces of `size ≥ 1` samples `numEntries` is the scan of the sample pairs. -/
theorem numEntries_eq_scan (l1 l2 : List Int) (size : Int) (hsize : 1 ≤ size)
    (h1 : (l1.length : Int) = size) (h2 : (l2.length : Int) = size) :
    numEntries l1 l2 size = .ret (entryScan .ENTRY_START 0 (l1.zip l2)) := by
  subst h1
  have hlen : l1.length = l2.length := by omega
  have h := numEntriesLoop_outcome l1 l2 hlen (l1.length - 1) ((l1.length : Int).toNat + 2) 0
    .ENTRY_START 0 (by simp) (by omega) (by simp)
  have hneg : ¬ ((l1.length : Int) < 0) := by omega
  simpa [numEntries, numEntriesRun, hneg] using h

/-- On valid traces of `size ≥ 1` samples `numEntries` is the fold of the switch. -/
theorem numEntries_eq_fold (l1 l2 : List Int) (size : Int) (hsize : 1 ≤ size)
    (h1 : (l1.length : Int) = size) (h2 : (l2.length : Int) = size)
    (hv1 : Valid01 l1) (hv2 : Valid01 l2) :
    numEntries l1 l2 size = .ret (entryFold (.ENTRY_START, 0) (l1.zip l2)).2 := by
  rw [numEntries_eq_scan l1 l2 size hsize h1 h2, entryScan_of_valid]
  exact (validPairs_zip l1 l2 (by omega)).2 ⟨hv1, hv2⟩

/-! ## The loop of `countZeros` as a scan of the samples -/

theorem liveCase_live (v : Int) (L : Locals) (hL : L.Live) : (liveCase v L).Live := by
  obtain ⟨s, zc, oc, k1, k0⟩ := L
  obtain ⟨h1, h2⟩ := hL
  cases s <;> simp only [ne_eq, not_true_eq_false] at h1 h2 <;>
    simp only [liveCase, Locals.Live] <;> split_ifs <;> simp

theorem startCase_live (v : Int) (hv : v = 0 ∨ v = 1) : (startCase v initLocals).Live := by
  rcases hv with rfl | rfl <;> simp [startCase, initLocals, Locals.Live, kMax]

theorem countZerosLoop_outcome (d : List Int) :
    ∀ (m fuel i : Nat) (L : Locals), L.Live → i + m = d.length → m + 1 ≤ fuel →
      (countZerosLoop d (d.length : Int) fuel (i : Int) L).outcome
        = .ret (zeroScan L (d.drop i)) := by
  intro m
  induction m with
  | zero =>
    intro fuel i L _ hi hf
    obtain ⟨f, rfl⟩ : ∃ f, fuel = f + 1 := ⟨fuel - 1, by omega⟩
    have hlt : ¬ ((i : Int) < (d.length : Int)) := by omega
    rw [List.drop_eq_nil_of_le (by omega)]
    simp [countZerosLoop, hlt, zeroScan]
  | succ m ih =>
    intro fuel i L hL hi hf
    obtain ⟨f, rfl⟩ : ∃ f, fuel = f + 1 := ⟨fuel - 1, by omega⟩
    have hi1 : i < d.length := by omega
    have hlt : (i : Int) < (d.length : Int) := by omega
    rw [List.drop_eq_getElem_cons hi1]
    simp only [countZerosLoop, if_pos hlt, readAt_natCast, List.getElem?_eq_getElem hi1,
      zeroScan]
    by_cases hv : d[i] ≠ 1 ∧ d[i] ≠ 0
    · simp [hv]
    · have hrec := ih f (i + 1) (liveCase d[i] L) (liveCase_live _ _ hL) (by omega) (by omega)
      simp only [Nat.cast_add, Nat.cast_one] at hrec
      rw [if_neg hv, if_neg hv]
      obtain ⟨h1, h2⟩ := hL
      cases hs : L.s
      all_goals first | exact absurd hs h1 | exact absurd hs h2 | simp [Run.after, hrec]

theorem countZerosLoop_start (x : Int) (rest : List Int) (n : Int) (f : Nat) (hn : 0 < n) :
    countZerosLoop (x :: rest) n (f + 1) 0 initLocals
      = if x ≠ 1 ∧ x ≠ 0 then ⟨.ret (-1), [0]⟩
        else (countZerosLoop (x :: rest) n f 1 (startCase x initLocals)).after [0, 0] := by
  simp [countZerosLoop, readAt, initLocals, hn]

/-- On a trace of `numSamples ≥ 1` samples `countZeros` checks and consumes the
first sample in `case START` and scans the rest. -/
theorem countZeros_eq_scan (x : Int) (rest : List Int) (numSamples : Int)
    (hn : ((x :: rest).length : Int) = numSamples) :
    countZeros (x :: rest) numSamples
      = .ret (if x ≠ 1 ∧ x ≠ 0 then -1 else zeroScan (startCase x initLocals) rest) := by
  subst hn
  have hlt : (0 : Int) < ((x :: rest).length : Int) := by
    simp only [List.length_cons, Nat.cast_add, Nat.cast_one]; omega
  have hpos : ¬ (((x :: rest).length : Int) ≤ 0) := by omega
  have hk : ¬ (kMax < 0) := by decide
  have hrun : countZerosRun (x :: rest) ((x :: rest).length : Int)
      = countZerosLoop (x :: rest) ((x :: rest).length : Int)
          (((x :: rest).length : Int).toNat + 1) 0 initLocals := by
    simp only [countZerosRun, if_neg hk, if_neg hpos, initLocals]
  rw [countZeros, hrun, countZerosLoop_start x rest _ _ hlt]
  by_cases hv : x ≠ 1 ∧ x ≠ 0
  · simp [hv]
  · have hx : x = 0 ∨ x = 1 := by
      simp only [not_and_or, not_not] at hv
      tauto
    have hrec := countZerosLoop_outcome (x :: rest) rest.length
      (((x :: rest).length : Int).toNat) 1
      (startCase x initLocals) (startCase_live x hx) (by simp; omega) (by simp)
    simp only [Nat.cast_one, List.drop_one, List.tail_cons] at hrec
    simp only [if_neg hv, Run.after]
    exact hrec

theorem liveCase_zeroCount_le (v : Int) (L : Locals) : L.zeroCount ≤ (liveCase v L).zeroCount := by
  obtain ⟨s, zc, oc, k1, k0⟩ := L
  cases s <;> simp only [liveCase] <;> (try split_ifs) <;> simp

theorem zeroFold_nil (L : Locals) : zeroFold L [] = L := rfl

theorem zeroFold_cons (L : Locals) (v : Int) (rest : List Int) :
    zeroFold L (v :: rest) = zeroFold (liveCase v L) rest := rfl

theorem zeroFold_append (L : Locals) (xs ys : List Int) :
    zeroFold L (xs ++ ys) = zeroFold (zeroFold L xs) ys := by
  simp [zeroFold, List.foldl_append]

theorem zeroFold_zeroCount_le (samples : List Int) :
    ∀ L : Locals, L.zeroCount ≤ (zeroFold L samples).zeroCount := by
  induction samples with
  | nil => intro L; simp [zeroFold_nil]
  | cons v rest ih =>
    intro L
    rw [zeroFold_cons]
    exact le_trans (liveCase_zeroCount_le v L) (ih _)

theorem zeroScan_of_valid (samples : List Int) :
    ∀ L : Locals, Valid01 samples → zeroScan L samples = (zeroFold L samples).zeroCount := by
  induction samples with
  | nil => intro L _; rfl
  | cons v rest ih =>
    intro L hv
    have hrest : Valid01 rest := fun q hq => hv q (List.mem_cons_of_mem _ hq)
    have hok : ¬ (v ≠ 1 ∧ v ≠ 0) := by
      rcases hv v (List.mem_cons_self _ _) with h | h <;> simp [h]
    rw [zeroScan, if_neg hok, zeroFold_cons, ih _ hrest]

theorem zeroScan_of_invalid (samples : List Int) :
    ∀ L : Locals, ¬ Valid01 samples → zeroScan L samples = -1 := by
  induction samples with
  | nil => intro L hv; exact absurd (fun p hp => by simp at hp) hv
  | cons v rest ih =>
    intro L hv
    by_cases hbad : v ≠ 1 ∧ v ≠ 0
    · rw [zeroScan, if_pos hbad]
    · rw [zeroScan, if_neg hbad]
      apply ih
      intro hrest
      apply hv
      intro q hq
      rcases List.mem_cons.1 hq with rfl | hq
      · simp only [not_and_or, not_not] at hbad
        tauto
      · exact hrest q hq

/-- On a valid trace of `numSamples ≥ 1` samples `countZeros` is the fold of its
cases over the samples after the first one. -/
theorem countZeros_eq_fold (x : Int) (rest : List Int) (numSamples : Int)
    (hn : ((x :: rest).length : Int) = numSamples) (hv : Valid01 (x :: rest)) :
    countZeros (x :: rest) numSamples
      = .ret (zeroFold (startCase x initLocals) rest).zeroCount := by
  have hok : ¬ (x ≠ 1 ∧ x ≠ 0) := by
    rcases hv x (List.mem_cons_self _ _) with h | h <;> simp [h]
  rw [countZeros_eq_scan x rest numSamples hn, if_neg hok, zeroScan_of_valid]
  exact fun q hq => hv q (List.mem_cons_of_mem _ hq)

/-- A property of the samples consumed so far and the locals that every case of
`countZeros` preserves holds after the whole fold. -/
theorem zeroFold_invariant (P : List Int → Locals → Prop)
    (step : ∀ p v L, (v = 0 ∨ v = 1) → P p L → P (p ++ [v]) (liveCase v L)) :
    ∀ (xs p : List Int) (L : Locals), Valid01 xs → P p L → P (p ++ xs) (zeroFold L xs) := by
  intro xs
  induction xs with
  | nil => intro p L _ hP; simpa [zeroFold_nil] using hP
  | cons v rest ih =>
    intro p L hv hP
    have hrest : Valid01 rest := fun q hq => hv q (List.mem_cons_of_mem _ hq)
    have h := ih (p ++ [v]) (liveCase v L) hrest (step p v L (hv v (List.mem_cons_self _ _)) hP)
    simpa [zeroFold_cons, List.append_assoc] using h

/-! ## Runs of blocked samples at the end of a trace -/

theorem replicate_suffix_concat (m : Nat) (p : List Int) (v : Int) :
    List.replicate (m + 1) (0 : Int) <:+ p ++ [v] ↔ v = 0 ∧ List.replicate m (0 : Int) <:+ p := by
  rw [List.replicate_succ']
  constructor
  · rintro ⟨t, ht⟩
    rw [← List.append_assoc] at ht
    obtain ⟨h1, h2⟩ := List.append_inj' ht rfl
    refine ⟨by simpa using h2.symm, t, h1⟩
  · rintro ⟨rfl, t, ht⟩
    exact ⟨t, by rw [← List.append_assoc, ht]⟩

theorem replicate_suffix_mono (m n : Nat) (hmn : m ≤ n) (p : List Int)
    (h : List.replicate n (0 : Int) <:+ p) : List.replicate m (0 : Int) <:+ p := by
  refine List.IsSuffix.trans ⟨List.replicate (n - m) 0, ?_⟩ h
  rw [← List.replicate_add]
  congr 1
  omega

/-! ## The crossing detector on crossing patterns -/

theorem entryFold_replicate_stable (e : EntryState) (a b : Int)
    (h : ∀ c, entrySwitch e a b c = (e, c)) (n : Nat) (c : Int) :
    entryFold (e, c) (List.replicate n (a, b)) = (e, c) := by
  induction n with
  | zero => rfl
  | succ n ih => rw [List.replicate_succ, entryFold_cons, h, ih]

theorem entryFold_replicate_enter (e e1 : EntryState) (a b c c1 : Int) (n : Nat) (hn : 1 ≤ n)
    (h : entrySwitch e a b c = (e1, c1)) (hstay : ∀ c, entrySwitch e1 a b c = (e1, c)) :
    entryFold (e, c) (List.replicate n (a, b)) = (e1, c1) := by
  obtain ⟨m, rfl⟩ : ∃ m, n = m + 1 := ⟨n - 1, by omega⟩
  rw [List.replicate_succ, entryFold_cons, h, entryFold_replicate_stable e1 a b hstay]

theorem entryFold_pattern (p : Pattern) (hp : p.Pos) (n : Int) :
    entryFold (.EMPTY, n) p.samples = (.EMPTY, n + 1) := by
  obtain ⟨_, hb, hc, hd, he⟩ := hp
  simp only [Pattern.samples, entryFold_append]
  rw [entryFold_replicate_stable .EMPTY 1 1 (by intro c; simp [entrySwitch]),
    entryFold_replicate_enter .EMPTY .BROKE_FIRST 0 1 n n p.b hb (by simp [entrySwitch])
      (by intro c; simp [entrySwitch]),
    entryFold_replicate_enter .BROKE_FIRST .BROKE_SECOND 0 0 n n p.c hc (by simp [entrySwitch])
      (by intro c; simp [entrySwitch]),
    entryFold_replicate_enter .BROKE_SECOND .CLEARED_FIRST 1 0 n n p.d hd (by simp [entrySwitch])
      (by intro c; simp [entrySwitch]),
    entryFold_replicate_enter .CLEARED_FIRST .EMPTY 1 1 n (n + 1) p.e he (by simp [entrySwitch])
      (by intro c; simp [entrySwitch])]

theorem entryFold_pattern_swap (p : Pattern) (hp : p.Pos) (n : Int) :
    entryFold (.EMPTY, n) (p.samples.map Prod.swap) = (.EMPTY, n) := by
  obtain ⟨_, hb, hc, hd, he⟩ := hp
  simp only [Pattern.samples, List.map_append, List.map_replicate, Prod.swap_prod_mk,
    entryFold_append]
  rw [entryFold_replicate_stable .EMPTY 1 1 (by intro c; simp [entrySwitch]),
    entryFold_replicate_enter .EMPTY .WRONG_WAY 1 0 n n p.b hb (by simp [entrySwitch])
      (by intro c; simp [entrySwitch]),
    entryFold_replicate_stable .WRONG_WAY 0 0 (by intro c; simp [entrySwitch]),
    entryFold_replicate_stable .WRONG_WAY 0 1 (by intro c; simp [entrySwitch]),
    entryFold_replicate_enter .WRONG_WAY .EMPTY 1 1 n n p.e he (by simp [entrySwitch])
      (by intro c; simp [entrySwitch])]

theorem entryFold_crossings (ps : List Pattern) (hpos : ∀ p ∈ ps, p.Pos) :
    ∀ n : Int, entryFold (.EMPTY, n) (crossings ps) = (.EMPTY, n + ps.length) ∧
      entryFold (.EMPTY, n) ((crossings ps).map Prod.swap) = (.EMPTY, n) := by
  induction ps with
  | nil => intro n; simp [crossings, entryFold_nil]
  | cons p ps ih =>
    intro n
    have hp := hpos p (List.mem_cons_self _ _)
    have hps : ∀ q ∈ ps, q.Pos := fun q hq => hpos q (List.mem_cons_of_mem _ hq)
    simp only [crossings, List.map_append, entryFold_append, entryFold_pattern p hp,
      entryFold_pattern_swap p hp, (ih hps _).1, (ih hps _).2, List.length_cons, Nat.cast_add,
      Nat.cast_one, and_true, Prod.mk.injEq, true_and]
    ring

/-- From `ENTRY_START` a sequence of crossings is folded as from `EMPTY`: its
first sample has both beams clear. -/
theorem entryFold_start_crossings (ps : List Pattern) (hk : 1 ≤ ps.length)
    (hpos : ∀ p ∈ ps, p.Pos) (n : Int) :
    entryFold (.ENTRY_START, n) (crossings ps) = entryFold (.EMPTY, n) (crossings ps) ∧
    entryFold (.ENTRY_START, n) ((crossings ps).map Prod.swap)
      = entryFold (.EMPTY, n) ((crossings ps).map Prod.swap) := by
  cases ps with
  | nil => simp at hk
  | cons p ps =>
    obtain ⟨ha, -⟩ := hpos p (List.mem_cons_self _ _)
    obtain ⟨m, hm⟩ : ∃ m, p.a = m + 1 := ⟨p.a - 1, by omega⟩
    simp only [crossings, Pattern.samples, hm, List.replicate_succ, List.cons_append,
      List.map_cons, Prod.swap_prod_mk, entryFold_cons]
    simp [entrySwitch]

theorem valid01_crossings (ps : List Pattern) :
    Valid01 ((crossings ps).map Prod.fst) ∧ Valid01 ((crossings ps).map Prod.snd) := by
  induction ps with
  | nil => simp [crossings, Valid01]
  | cons p ps ih =>
    obtain ⟨ih1, ih2⟩ := ih
    constructor
    · intro x hx
      simp only [crossings, Pattern.samples, List.map_append, List.map_replicate,
        List.mem_append, List.mem_replicate] at hx
      rcases hx with ((((h | h) | h) | h) | h) | h
      all_goals first | exact ih1 x h | (simp [h.2])
    · intro x hx
      simp only [crossings, Pattern.samples, List.map_append, List.map_replicate,
        List.mem_append, List.mem_replicate] at hx
      rcases hx with ((((h | h) | h) | h) | h) | h
      all_goals first | exact ih2 x h | (simp [h.2])

theorem zip_map_fst_snd (xs : List (Int × Int)) :
    (xs.map Prod.fst).zip (xs.map Prod.snd) = xs := by
  induction xs with
  | nil => rfl
  | cons x xs ih => simp [ih]

theorem zip_map_snd_fst (xs : List (Int × Int)) :
    (xs.map Prod.snd).zip (xs.map Prod.fst) = xs.map Prod.swap := by
  induction xs with
  | nil => rfl
  | cons x xs ih => simp [ih, Prod.swap]

theorem crossings_length_pos (ps : List Pattern) (hk : 1 ≤ ps.length)
    (hpos : ∀ p ∈ ps, p.Pos) : 1 ≤ (crossings ps).length := by
  cases ps with
  | nil => simp at hk
  | cons p ps =>
    obtain ⟨ha, -⟩ := hpos p (List.mem_cons_self _ _)
    simp only [crossings, Pattern.samples, List.length_append, List.length_replicate]
    omega

/-! ## Theorems on `numEntries` -/

/-- C1: for k ≥ 1 crossing patterns, each of a ≥ 1 samples (1,1), b ≥ 1 samples
(0,1), c ≥ 1 samples (0,0), d ≥ 1 samples (1,0) and e ≥ 1 samples (1,1), put one
after the other, `numEntries(first, second, size)` returns k and
`numEntries(second, first, size)` returns 0, `size` being the trace length. -/
theorem numEntries_crossings (ps : List Pattern) (hk : 1 ≤ ps.length)
    (hpos : ∀ p ∈ ps, p.Pos) (first second : List Int) (size : Int)
    (hfirst : first = (crossings ps).map Prod.fst)
    (hsecond : second = (crossings ps).map Prod.snd)
    (hsize : size = (first.length : Int)) :
    numEntries first second size = .ret (ps.length : Int) ∧
    numEntries second first size = .ret 0 := by
  subst hfirst hsecond hsize
  have hlen := crossings_length_pos ps hk hpos
  obtain ⟨hv1, hv2⟩ := valid01_crossings ps
  have hsz : (1 : Int) ≤ (((crossings ps).map Prod.fst).length : Int) := by
    simp only [List.length_map]; omega
  constructor
  · rw [numEntries_eq_fold _ _ _ hsz rfl (by simp) hv1 hv2, zip_map_fst_snd,
      (entryFold_start_crossings ps hk hpos 0).1, (entryFold_crossings ps hpos 0).1]
    simp
  · rw [numEntries_eq_fold _ _ _ hsz (by simp) rfl hv2 hv1, zip_map_snd_fst,
      (entryFold_start_crossings ps hk hpos 0).2, (entryFold_crossings ps hpos 0).2]

/-- Witness of C1: two crossings, of phase lengths 1,1,1,1,1 and 2,1,3,1,2. -/
theorem numEntries_crossings_witness :
    numEntries [1, 0, 0, 1, 1, 1, 1, 0, 0, 0, 0, 1, 1, 1] [1, 1, 0, 0, 1, 1, 1, 1, 0, 0, 0, 0, 1, 1] 14
      = .ret 2 ∧
    numEntries [1, 1, 0, 0, 1, 1, 1, 1, 0, 0, 0, 0, 1, 1] [1, 0, 0, 1, 1, 1, 1, 0, 0, 0, 0, 1, 1, 1] 14
      = .ret 0 :=
  numEntries_crossings [⟨1, 1, 1, 1, 1⟩, ⟨2, 1, 3, 1, 2⟩] (by decide) (by decide)
    [1, 0, 0, 1, 1, 1, 1, 0, 0, 0, 0, 1, 1, 1] [1, 1, 0, 0, 1, 1, 1, 1, 0, 0, 0, 0, 1, 1] 14
    (by decide) (by decide) (by decide)

/-- C3, as the claim states it, fails: on `laser1 = [1,1,0,0,1,1]` and
`laser2 = [1,0,0,1,1,1]` it is not the case that `numEntries(laser1, laser2, 6)`
returns 1 and `numEntries(laser2, laser1, 6)` returns 0. -/
theorem numEntries_scenario_counterexample :
    ¬ (numEntries [1, 1, 0, 0, 1, 1] [1, 0, 0, 1, 1, 1] 6 = .ret 1 ∧
       numEntries [1, 0, 0, 1, 1, 1] [1, 1, 0, 0, 1, 1] 6 = .ret 0) := by
  decide

/-- C3, amended: on `laser1 = [1,1,0,0,1,1]` and `laser2 = [1,0,0,1,1,1]`, where
the second beam is blocked first, `numEntries(laser1, laser2, 6)` returns 0 and
`numEntries(laser2, laser1, 6)` returns exactly 1. -/
theorem numEntries_scenario :
    numEntries [1, 1, 0, 0, 1, 1] [1, 0, 0, 1, 1, 1] 6 = .ret 0 ∧
    numEntries [1, 0, 0, 1, 1, 1] [1, 1, 0, 0, 1, 1] 6 = .ret 1 := by
  decide

/-- C6: on traces of `size ≥ 1` samples `numEntries` returns -1 exactly when
some sample at an index below `size` of either trace is neither 0 nor 1, and
otherwise it returns a non-negative count. -/
theorem numEntries_invalid_sample (laser1 laser2 : List Int) (size : Int) (hsize : 1 ≤ size)
    (h1 : (laser1.length : Int) = size) (h2 : (laser2.length : Int) = size) :
    (numEntries laser1 laser2 size = .ret (-1) ↔
      (HasInvalidBelow laser1 size ∨ HasInvalidBelow laser2 size)) ∧
    (¬ (HasInvalidBelow laser1 size ∨ HasInvalidBelow laser2 size) →
      ∃ c : Int, 0 ≤ c ∧ numEntries laser1 laser2 size = .ret c) := by
  have hscan := numEntries_eq_scan laser1 laser2 size hsize h1 h2
  have hzip := validPairs_zip laser1 laser2 (by omega)
  have hbad : (HasInvalidBelow laser1 size ∨ HasInvalidBelow laser2 size) ↔
      ¬ ValidPairs (laser1.zip laser2) := by
    rw [hzip, not_and_or, not_valid01_iff laser1 size h1, not_valid01_iff laser2 size h2]
  have hgood : ValidPairs (laser1.zip laser2) →
      ∃ c : Int, 0 ≤ c ∧ numEntries laser1 laser2 size = .ret c := by
    intro hv
    refine ⟨_, ?_, by rw [hscan, entryScan_of_valid _ _ _ hv]⟩
    exact entryFold_count_le (laser1.zip laser2) (.ENTRY_START, 0)
  refine ⟨⟨fun h => ?_, fun h => ?_⟩, fun h => hgood (not_not.1 (mt hbad.2 h))⟩
  · rw [hbad]
    intro hv
    obtain ⟨c, hc, hret⟩ := hgood hv
    rw [hret] at h
    injection h with h
    omega
  · rw [hscan, entryScan_of_invalid _ _ _ (hbad.1 h)]

/-- Witness of C6: the second sample of the first trace is 2. -/
theorem numEntries_invalid_sample_witness :
    (1 : Int) ≤ 2 ∧
    ((numEntries [1, 2] [1, 1] 2 = .ret (-1) ↔
      (HasInvalidBelow [1, 2] 2 ∨ HasInvalidBelow [1, 1] 2)) ∧
    (¬ (HasInvalidBelow [1, 2] 2 ∨ HasInvalidBelow [1, 1] 2) →
      ∃ c : Int, 0 ≤ c ∧ numEntries [1, 2] [1, 1] 2 = .ret c)) :=
  ⟨by decide, numEntries_invalid_sample [1, 2] [1, 1] 2 (by decide) (by decide) (by decide)⟩

/-- C8, as the claim states it, fails at size 0: on buffers that hold the valid
sample 1, `numEntries` with `size = 0` returns 0 and not the sentinel -1. -/
theorem numEntries_size_zero_counterexample :
    (0 : Int) ≤ 0 ∧ numEntries [1] [1] 0 = .ret 0 ∧ numEntries [1] [1] 0 ≠ .ret (-1) := by
  decide

/-- C8, amended: for every negative `size`, whatever the two buffers hold,
`numEntries` returns the sentinel -1, and it reads no element of either. -/
theorem numEntries_negative_size (laser1 laser2 : List Int) (size : Int) (hsize : size < 0) :
    numEntries laser1 laser2 size = .ret (-1) ∧ (numEntriesRun laser1 laser2 size).reads = [] := by
  simp [numEntries, numEntriesRun, hsize]

/-- Witness of C8 amended: size -1 on buffers holding valid samples. -/
theorem numEntries_negative_size_witness :
    (-1 : Int) < 0 ∧ numEntries [0, 1] [1, 1] (-1) = .ret (-1) ∧
      (numEntriesRun [0, 1] [1, 1] (-1)).reads = [] :=
  ⟨by decide, numEntries_negative_size [0, 1] [1, 1] (-1) (by decide)⟩

/-- C9 fails at `size = 0`: on two empty traces `numEntries` runs the loop body
once and reads index 0 of the first trace, which is not below `size`; the read is
outside the buffer and no count is returned. -/
theorem numEntries_size_zero_reads_past_end :
    numEntriesRun [] [] 0 = ⟨.outOfBounds, [0]⟩ ∧
    ¬ (∀ i ∈ (numEntriesRun [] [] 0).reads, 0 ≤ i ∧ i < 0) ∧
    ¬ (∃ c : Int, numEntries [] [] 0 = .ret c) := by
  refine ⟨by decide, by decide, ?_⟩
  rintro ⟨c, hc⟩
  have h : numEntries [] [] 0 = .outOfBounds := by decide
  rw [h] at hc
  cases hc

/-! ## Theorems on `countZeros` -/

theorem breakInv_step (p : List Int) (v : Int) (L : Locals) (hv : v = 0 ∨ v = 1)
    (h : BreakInv p L) : BreakInv (p ++ [v]) (liveCase v L) := by
  obtain ⟨s, zc, oc, k1, k0⟩ := L
  have hone : ¬ ((1 : Int) = 0) := by decide
  rcases h with ⟨hzc, hno, hst⟩ | ⟨hzc, hin⟩
  · simp only at hzc
    subst hzc
    rcases hst with ⟨hs, hsuf⟩ | ⟨hs, k, hk, hk1, hk10, hsuf, hnsuf⟩
    · simp only at hs
      subst hs
      have hno10 : ¬ (List.replicate 10 (0 : Int) <:+ p) :=
        fun h10 => hsuf (replicate_suffix_mono 1 10 (by omega) p h10)
      rcases hv with rfl | rfl
      · left
        refine ⟨by simp [liveCase, kMax], ?_, Or.inr ⟨by simp [liveCase, kMax], 1, ?_⟩⟩
        · rw [List.infix_concat_iff, replicate_suffix_concat]
          rintro (⟨-, h⟩ | h)
          · exact hno10 h
          · exact hno h
        · refine ⟨by simp [liveCase, kMax], le_refl _, by omega, ?_, ?_⟩
          · rw [replicate_suffix_concat]; exact ⟨rfl, List.nil_suffix⟩
          · rw [replicate_suffix_concat]; exact fun h => hsuf h.2
      · left
        refine ⟨by simp [liveCase], ?_, Or.inl ⟨by simp [liveCase], ?_⟩⟩
        · rw [List.infix_concat_iff, replicate_suffix_concat]
          rintro (⟨h, -⟩ | h)
          · exact hone h
          · exact hno h
        · rw [replicate_suffix_concat]; exact fun h => hone h.1
    · simp only at hs hk
      subst hs hk
      rcases hv with rfl | rfl
      · by_cases h10 : k = 10
        · subst h10
          right
          refine ⟨by simp [liveCase, kMax], ?_⟩
          rw [List.infix_concat_iff, replicate_suffix_concat]
          exact Or.inl ⟨rfl, hsuf⟩
        · have hk9 : ¬ ((k : Int) + 1 > kMax) := by simp only [kMax]; omega
          have hno10 : ¬ (List.replicate 10 (0 : Int) <:+ p) :=
            fun h10 => hnsuf (replicate_suffix_mono (k + 1) 10 (by omega) p h10)
          left
          refine ⟨by simp [liveCase, hk9], ?_, Or.inr ⟨by simp [liveCase, hk9], k + 1, ?_⟩⟩
          · rw [List.infix_concat_iff, replicate_suffix_concat]
            rintro (⟨-, h⟩ | h)
            · exact hno10 h
            · exact hno h
          · refine ⟨by simp [liveCase, hk9], by omega, by omega, ?_, ?_⟩
            · rw [replicate_suffix_concat]; exact ⟨rfl, hsuf⟩
            · rw [replicate_suffix_concat]; exact fun h => hnsuf h.2
      · left
        refine ⟨by simp [liveCase], ?_, Or.inl ⟨by simp [liveCase], ?_⟩⟩
        · rw [List.infix_concat_iff, replicate_suffix_concat]
          rintro (⟨h, -⟩ | h)
          · exact hone h
          · exact hno h
        · rw [replicate_suffix_concat]; exact fun h => hone h.1
  · right
    refine ⟨le_trans hzc (liveCase_zeroCount_le v _), ?_⟩
    rw [List.infix_concat_iff]
    exact Or.inr hin

theorem breakInv_start (x : Int) (hx : x = 0 ∨ x = 1) : BreakInv [x] (startCase x initLocals) := by
  rcases hx with rfl | rfl
  · left
    refine ⟨by simp [startCase, initLocals, kMax], by decide,
      Or.inr ⟨by simp [startCase, initLocals, kMax], 1, by simp [startCase, initLocals, kMax],
        le_refl _, by omega, by decide, by decide⟩⟩
  · left
    exact ⟨by simp [startCase, initLocals], by decide,
      Or.inl ⟨by simp [startCase, initLocals], by decide⟩⟩

/-- C2: on a trace of `numSamples ≥ 1` samples, all 0 or 1, `countZeros` returns
a count that is at least 1 exactly when the trace holds 11 consecutive 0s, and
that is 0 when it holds no 11 consecutive 0s. -/
theorem countZeros_pos_iff (trace : List Int) (numSamples : Int) (hn : 1 ≤ numSamples)
    (hlen : (trace.length : Int) = numSamples) (hv : Valid01 trace) :
    ∃ c : Int, countZeros trace numSamples = .ret c ∧
      (1 ≤ c ↔ List.replicate 11 (0 : Int) <:+: trace) ∧
      (¬ (List.replicate 11 (0 : Int) <:+: trace) → c = 0) := by
  cases trace with
  | nil => simp at hlen; omega
  | cons x rest =>
    have hx := hv x (List.mem_cons_self _ _)
    have hrest : Valid01 rest := fun q hq => hv q (List.mem_cons_of_mem _ hq)
    have hinv := zeroFold_invariant BreakInv breakInv_step rest [x] (startCase x initLocals)
      hrest (breakInv_start x hx)
    simp only [List.singleton_append] at hinv
    refine ⟨_, countZeros_eq_fold x rest numSamples hlen hv, ?_, ?_⟩
    · rcases hinv with ⟨hzc, hno, -⟩ | ⟨hzc, hin⟩
      · rw [hzc]
        exact ⟨fun h => absurd h (by decide), fun h => absurd h hno⟩
      · exact ⟨fun _ => hin, fun _ => hzc⟩
    · intro hno
      rcases hinv with ⟨hzc, -, -⟩ | ⟨-, hin⟩
      · exact hzc
      · exact absurd hin hno

/-- Witness of C2: twelve blocked samples between clear ones. -/
theorem countZeros_pos_iff_witness :
    ∃ c : Int, countZeros [1, 0, 0, 0, 0, 0, 0, 0, 0, 0, 0, 0, 0, 1] 14 = .ret c ∧
      (1 ≤ c ↔ List.replicate 11 (0 : Int) <:+: [1, 0, 0, 0, 0, 0, 0, 0, 0, 0, 0, 0, 0, 1]) ∧
      (¬ (List.replicate 11 (0 : Int) <:+: [1, 0, 0, 0, 0, 0, 0, 0, 0, 0, 0, 0, 0, 1]) → c = 0) :=
  countZeros_pos_iff [1, 0, 0, 0, 0, 0, 0, 0, 0, 0, 0, 0, 0, 1] 14 (by decide) (by decide)
    (by decide)

theorem zeroFold_all_clear (m : Nat) (L : Locals) (hs : L.s = .GOT_ONE) :
    zeroFold L (List.replicate m 1) = L := by
  induction m with
  | zero => rfl
  | succ m ih =>
    obtain ⟨s, zc, oc, k1, k0⟩ := L
    simp only at hs
    subst hs
    have hstep : liveCase 1 ⟨.GOT_ONE, zc, oc, k1, k0⟩ = ⟨.GOT_ONE, zc, oc, k1, k0⟩ := by
      simp [liveCase]
    rw [List.replicate_succ, zeroFold_cons, hstep, ih]

/-- C5: on the all-clear trace of `n ≥ 1` samples `countZeros` returns 0 and
`numEntries`, run on the trace and itself, returns 0. -/
theorem all_clear_counts (n : Nat) (hn : 1 ≤ n) :
    countZeros (List.replicate n 1) (n : Int) = .ret 0 ∧
    numEntries (List.replicate n 1) (List.replicate n 1) (n : Int) = .ret 0 := by
  obtain ⟨m, rfl⟩ : ∃ m, n = m + 1 := ⟨n - 1, by omega⟩
  have hvalid : Valid01 (List.replicate (m + 1) 1) := by
    intro x hx
    exact Or.inr (List.eq_of_mem_replicate hx)
  constructor
  · have h := countZeros_eq_fold 1 (List.replicate m 1) ((m + 1 : Nat) : Int) (by simp)
      (by rw [← List.replicate_succ]; exact hvalid)
    rw [List.replicate_succ, h, zeroFold_all_clear m _ (by simp [startCase, initLocals])]
    simp [startCase, initLocals]
  · rw [numEntries_eq_fold _ _ _ (by omega) (by simp) (by simp) hvalid hvalid,
      List.zip_replicate',
      entryFold_replicate_enter .ENTRY_START .EMPTY 1 1 0 0 (m + 1) (by omega)
        (by simp [entrySwitch]) (by intro c; simp [entrySwitch])]

/-- Witness of C5: the all-clear trace of 600 samples, six seconds at 100 Hz. -/
theorem all_clear_counts_witness :
    countZeros (List.replicate 600 1) ((600 : Nat) : Int) = .ret 0 ∧
    numEntries (List.replicate 600 1) (List.replicate 600 1) ((600 : Nat) : Int) = .ret 0 :=
  all_clear_counts 600 (by decide)

theorem startCase_zeroCount (x : Int) : (startCase x initLocals).zeroCount = 0 := by
  simp only [startCase, initLocals, kMax]
  split_ifs <;> simp_all

/-- C7: on a trace of `numSamples ≥ 1` samples `countZeros` returns -1 exactly
when some sample at an index below `numSamples` is neither 0 nor 1, and
otherwise it returns a non-negative count. -/
theorem countZeros_invalid_sample (trace : List Int) (numSamples : Int) (hn : 1 ≤ numSamples)
    (hlen : (trace.length : Int) = numSamples) :
    (countZeros trace numSamples = .ret (-1) ↔ HasInvalidBelow trace numSamples) ∧
    (¬ HasInvalidBelow trace numSamples →
      ∃ c : Int, 0 ≤ c ∧ countZeros trace numSamples = .ret c) := by
  cases trace with
  | nil => simp at hlen; omega
  | cons x rest =>
    have hscan := countZeros_eq_scan x rest numSamples hlen
    have hbad := not_valid01_iff (x :: rest) numSamples hlen
    have hgood : Valid01 (x :: rest) →
        ∃ c : Int, 0 ≤ c ∧ countZeros (x :: rest) numSamples = .ret c := by
      intro hv
      refine ⟨_, ?_, countZeros_eq_fold x rest numSamples hlen hv⟩
      have h := zeroFold_zeroCount_le rest (startCase x initLocals)
      rw [startCase_zeroCount] at h
      exact h
    have hsentinel : ¬ Valid01 (x :: rest) → countZeros (x :: rest) numSamples = .ret (-1) := by
      intro hv
      rw [hscan]
      by_cases hx : x ≠ 1 ∧ x ≠ 0
      · rw [if_pos hx]
      · rw [if_neg hx, zeroScan_of_invalid]
        intro hrest
        apply hv
        intro q hq
        rcases List.mem_cons.1 hq with rfl | hq
        · simp only [not_and_or, not_not] at hx
          tauto
        · exact hrest q hq
    refine ⟨⟨fun h => ?_, fun h => hsentinel (hbad.2 h)⟩, fun h => hgood (not_not.1 (mt hbad.1 h))⟩
    rw [← hbad]
    intro hv
    obtain ⟨c, hc, hret⟩ := hgood hv
    rw [hret] at h
    injection h with h
    omega

/-- Witness of C7: the last sample is 7. -/
theorem countZeros_invalid_sample_witness :
    (countZeros [0, 1, 7] 3 = .ret (-1) ↔ HasInvalidBelow [0, 1, 7] 3) ∧
    (¬ HasInvalidBelow [0, 1, 7] 3 → ∃ c : Int, 0 ≤ c ∧ countZeros [0, 1, 7] 3 = .ret c) :=
  countZeros_invalid_sample [0, 1, 7] 3 (by decide) (by decide)

/-- C10: for every `numSamples ≤ 0` and any trace `countZeros` returns the
sentinel -1 and reads no element of the trace. -/
theorem countZeros_empty_input (trace : List Int) (numSamples : Int) (hn : numSamples ≤ 0) :
    countZeros trace numSamples = .ret (-1) ∧ (countZerosRun trace numSamples).reads = [] := by
  have hk : ¬ (kMax < 0) := by decide
  simp [countZeros, countZerosRun, hk, hn]

/-- Witness of C10: `numSamples = 0` on a buffer of three samples. -/
theorem countZeros_empty_input_witness :
    countZeros [0, 0, 1] 0 = .ret (-1) ∧ (countZerosRun [0, 0, 1] 0).reads = [] :=
  countZeros_empty_input [0, 0, 1] 0 (by decide)

/-! ## The debouncers and the runs of blocked samples -/

theorem longFrom_nil (cur : Nat) : longFrom cur [] = if 11 ≤ cur then 1 else 0 := by
  by_cases h0 : cur = 0
  · subst h0; simp [longFrom, zeroRunsFrom]
  · by_cases h : 11 ≤ cur <;> simp [longFrom, zeroRunsFrom, h0, h]

theorem longFrom_blocked (cur : Nat) (rest : List Int) :
    longFrom cur (0 :: rest) = longFrom (cur + 1) rest := by
  simp [longFrom, zeroRunsFrom]

theorem longFrom_clear (cur : Nat) (v : Int) (rest : List Int) (hv : v ≠ 0) :
    longFrom cur (v :: rest) = (if 11 ≤ cur then 1 else 0) + longFrom 0 rest := by
  by_cases h0 : cur = 0
  · subst h0; simp [longFrom, zeroRunsFrom, hv]
  · by_cases h : 11 ≤ cur
    · simp [longFrom, zeroRunsFrom, hv, h0, h, List.countP_cons]; omega
    · simp [longFrom, zeroRunsFrom, hv, h0, h, List.countP_cons]

theorem longZeroRuns_eq (d : List Int) : longZeroRuns d = longFrom 0 d := rfl

theorem specFold_runs (d : List Int) :
    ∀ (S : DebounceState) (cur : Nat), SpecRel S cur →
      (d.foldl (specStep 10) S).blockedCount + (if S.phase = .ConfirmedBlocked then 1 else 0)
        = S.blockedCount + longFrom cur d := by
  induction d with
  | nil =>
    intro S cur h
    obtain ⟨ph, br, cr, bc, cc⟩ := S
    cases ph <;> simp only [SpecRel] at h <;> simp [longFrom_nil] <;> (try split_ifs) <;> omega
  | cons v rest ih =>
    intro S cur h
    obtain ⟨ph, br, cr, bc, cc⟩ := S
    by_cases hv : v = 0
    · subst hv
      rw [longFrom_blocked, List.foldl_cons]
      cases ph <;> simp only [SpecRel] at h
      · subst h
        have := ih ⟨.AccumulatingBlockedRun, 1, cr, bc, cc⟩ 1 (by simp [SpecRel])
        simpa [specStep] using this
      · obtain ⟨rfl, h1, h10⟩ := h
        by_cases h9 : br = 10
        · subst h9
          have := ih ⟨.ConfirmedBlocked, 11, cr, bc + 1, cc⟩ 11 (by simp [SpecRel])
          simp only [specStep] at this ⊢
          simp at this ⊢
          omega
        · have := ih ⟨.AccumulatingBlockedRun, br + 1, cr, bc, cc⟩ (br + 1)
            (by simp [SpecRel]; omega)
          have hlt : ¬ (10 < br + 1) := by omega
          simpa [specStep, hlt] using this
      · subst h
        have := ih ⟨.AccumulatingBlockedRun, 1, cr, bc, cc⟩ 1 (by simp [SpecRel])
        simpa [specStep] using this
      · have := ih ⟨.ConfirmedBlocked, br, cr, bc, cc⟩ (cur + 1) (by simp [SpecRel]; omega)
        simpa [specStep] using this
      · subst h
        have := ih ⟨.AccumulatingBlockedRun, 1, cr, bc, cc⟩ 1 (by simp [SpecRel])
        simpa [specStep] using this
    · rw [longFrom_clear _ _ _ hv, List.foldl_cons]
      cases ph <;> simp only [SpecRel] at h
      · subst h
        have := ih ⟨.AccumulatingClearRun, br, 1, bc, cc⟩ 0 (by simp [SpecRel])
        simpa [specStep, hv] using this
      · obtain ⟨rfl, h1, h10⟩ := h
        have := ih ⟨.AccumulatingClearRun, br, 1, bc, cc⟩ 0 (by simp [SpecRel])
        have hlt : ¬ (11 ≤ br) := by omega
        simpa [specStep, hv, hlt] using this
      · subst h
        by_cases hc : 10 < cr + 1
        · have := ih ⟨.ConfirmedClear, br, cr + 1, bc, cc + 1⟩ 0 (by simp [SpecRel])
          simpa [specStep, hv, hc] using this
        · have := ih ⟨.AccumulatingClearRun, br, cr + 1, bc, cc⟩ 0 (by simp [SpecRel])
          simpa [specStep, hv, hc] using this
      · have := ih ⟨.AccumulatingClearRun, br, 1, bc, cc⟩ 0 (by simp [SpecRel])
        simp only [specStep, hv, if_false, if_pos h] at this ⊢
        simp at this ⊢
        omega
      · subst h
        have := ih ⟨.ConfirmedClear, br, cr, bc, cc⟩ 0 (by simp [SpecRel])
        simpa [specStep, hv] using this

/-- The FSM of spec section 4.1 counts the maximal runs of at least 11
consecutive 0s. -/
theorem specDebounce_eq_longZeroRuns (d : List Int) : specDebounce 10 d = longZeroRuns d := by
  have h := specFold_runs d DebounceState.init 0 (by simp [SpecRel, DebounceState.init])
  simpa [specDebounce, DebounceState.init, longZeroRuns_eq] using h

theorem hystFold_le_runs (d : List Int) :
    ∀ (S : DebounceState) (cur : Nat), HystRel S cur →
      (d.foldl (hystStep 10) S).blockedCount
          + (if S.phase = .ConfirmedBlocked ∧ 11 ≤ cur then 1 else 0)
        ≤ S.blockedCount + longFrom cur d := by
  induction d with
  | nil =>
    intro S cur h
    obtain ⟨ph, br, cr, bc, cc⟩ := S
    cases ph <;> simp only [HystRel] at h <;> simp [longFrom_nil]
  | cons v rest ih =>
    intro S cur h
    obtain ⟨ph, br, cr, bc, cc⟩ := S
    by_cases hv : v = 0
    · subst hv
      rw [longFrom_blocked, List.foldl_cons]
      cases ph <;> simp only [HystRel] at h
      · subst h
        have := ih ⟨.AccumulatingBlockedRun, 1, cr, bc, cc⟩ 1 (by simp [HystRel])
        simpa [hystStep] using this
      · obtain ⟨rfl, h1, h10⟩ := h
        by_cases h9 : br = 10
        · subst h9
          have := ih ⟨.ConfirmedBlocked, 11, cr, bc + 1, cc⟩ 11 (by simp [HystRel])
          simp only [hystStep] at this ⊢
          simp at this ⊢
          omega
        · have := ih ⟨.AccumulatingBlockedRun, br + 1, cr, bc, cc⟩ (br + 1)
            (by simp [HystRel]; omega)
          have hlt : ¬ (10 < br + 1) := by omega
          simpa [hystStep, hlt] using this
      · subst h
        have := ih ⟨.ConfirmedBlocked, br, cr, bc, cc⟩ 1 (by simp [HystRel])
        simpa [hystStep] using this
      · have := ih ⟨.ConfirmedBlocked, br, cr, bc, cc⟩ (cur + 1) (by simp [HystRel])
        simp only [hystStep] at this ⊢
        simp only [if_true, true_and] at this ⊢
        split_ifs at this ⊢ <;> omega
      · subst h
        have := ih ⟨.AccumulatingBlockedRun, 1, cr, bc, cc⟩ 1 (by simp [HystRel])
        simpa [hystStep] using this
    · rw [longFrom_clear _ _ _ hv, List.foldl_cons]
      cases ph <;> simp only [HystRel] at h
      · subst h
        have := ih ⟨.ConfirmedClear, br, 1, bc, cc⟩ 0 (by simp [HystRel])
        simpa [hystStep, hv] using this
      · obtain ⟨rfl, h1, h10⟩ := h
        have := ih ⟨.ConfirmedClear, br, cr, bc, cc⟩ 0 (by simp [HystRel])
        have hlt : ¬ (11 ≤ br) := by omega
        simpa [hystStep, hv, hlt] using this
      · subst h
        by_cases hc : 10 < cr + 1
        · have := ih ⟨.ConfirmedClear, br, cr + 1, bc, cc + 1⟩ 0 (by simp [HystRel])
          simpa [hystStep, hv, hc] using this
        · have := ih ⟨.AccumulatingClearRun, br, cr + 1, bc, cc⟩ 0 (by simp [HystRel])
          simpa [hystStep, hv, hc] using this
      · have := ih ⟨.AccumulatingClearRun, br, 1, bc, cc⟩ 0 (by simp [HystRel])
        simp only [hystStep, hv, if_false] at this ⊢
        simp only [true_and] at this ⊢
        simp at this
        split_ifs <;> omega
      · subst h
        have := ih ⟨.ConfirmedClear, br, cr, bc, cc⟩ 0 (by simp [HystRel])
        simpa [hystStep, hv] using this

/-- The debouncer with hysteresis never counts more than the maximal runs of at
least 11 consecutive 0s. -/
theorem hystDebounce_le_longZeroRuns (d : List Int) : hystDebounce 10 d ≤ longZeroRuns d := by
  have h := hystFold_le_runs d DebounceState.init 0 (by simp [HystRel, DebounceState.init])
  simpa [hystDebounce, DebounceState.init, longZeroRuns_eq] using h

theorem suffix_snoc (l p : List Int) (v : Int) (h : l <:+ p) : l ++ [v] <:+ p ++ [v] := by
  obtain ⟨t, ht⟩ := h
  exact ⟨t, by rw [← List.append_assoc, ht]⟩

theorem hystFold_eq_runs (trace : List Int) (hburst : NoShortBurst trace) (d : List Int) :
    ∀ (p : List Int) (S : DebounceState) (cur : Nat), p ++ d = trace → Valid01 d →
      HystInv p S cur →
      (d.foldl (hystStep 10) S).blockedCount + (if S.phase = .ConfirmedBlocked then 1 else 0)
        = S.blockedCount + longFrom cur d := by
  induction d with
  | nil =>
    intro p S cur _ _ h
    obtain ⟨ph, br, cr, bc, cc⟩ := S
    cases ph <;> simp only [HystInv] at h <;> simp [longFrom_nil] <;> (try split_ifs) <;> omega
  | cons v rest ih =>
    intro p S cur hp hvalid h
    obtain ⟨ph, br, cr, bc, cc⟩ := S
    have hrest : Valid01 rest := fun q hq => hvalid q (List.mem_cons_of_mem _ hq)
    have hp1 : (p ++ [v]) ++ rest = trace := by rw [← hp]; simp
    rcases hvalid v (List.mem_cons_self _ _) with hv | hv
    · subst hv
      rw [longFrom_blocked, List.foldl_cons]
      cases ph <;> simp only [HystInv] at h
      · subst h
        have := ih (p ++ [0]) ⟨.AccumulatingBlockedRun, 1, cr, bc, cc⟩ 1 hp1 hrest
          ⟨rfl, le_refl _, by omega, (replicate_suffix_concat 0 p 0).2 ⟨rfl, List.nil_suffix⟩⟩
        simpa [hystStep] using this
      · obtain ⟨rfl, h1, h10, hsuf⟩ := h
        by_cases h9 : br = 10
        · subst h9
          have := ih (p ++ [0]) ⟨.ConfirmedBlocked, 11, cr, bc + 1, cc⟩ 11 hp1 hrest
            ⟨le_refl _, (replicate_suffix_concat 10 p 0).2 ⟨rfl, hsuf⟩⟩
          simp only [hystStep] at this ⊢
          simp at this ⊢
          omega
        · have := ih (p ++ [0]) ⟨.AccumulatingBlockedRun, br + 1, cr, bc, cc⟩ (br + 1) hp1 hrest
            ⟨rfl, by omega, by omega, (replicate_suffix_concat br p 0).2 ⟨rfl, hsuf⟩⟩
          have hlt : ¬ (10 < br + 1) := by omega
          simpa [hystStep, hlt] using this
      · obtain ⟨-, h1, h10, hsuf⟩ := h
        exfalso
        apply hburst cr h1 h10
        have hs := suffix_snoc _ p 0 hsuf
        rw [← hp1]
        exact List.IsInfix.trans hs.isInfix (List.prefix_append _ _).isInfix
      · obtain ⟨h11, hsuf⟩ := h
        have := ih (p ++ [0]) ⟨.ConfirmedBlocked, br, cr, bc, cc⟩ (cur + 1) hp1 hrest
          ⟨by omega, (replicate_suffix_concat 10 p 0).2
            ⟨rfl, replicate_suffix_mono 10 11 (by omega) p hsuf⟩⟩
        simpa [hystStep] using this
      · subst h
        have := ih (p ++ [0]) ⟨.AccumulatingBlockedRun, 1, cr, bc, cc⟩ 1 hp1 hrest
          ⟨rfl, le_refl _, by omega, (replicate_suffix_concat 0 p 0).2 ⟨rfl, List.nil_suffix⟩⟩
        simpa [hystStep] using this
    · subst hv
      have hv : (1 : Int) ≠ 0 := by decide
      rw [longFrom_clear _ _ _ hv, List.foldl_cons]
      cases ph <;> simp only [HystInv] at h
      · subst h
        have := ih (p ++ [1]) ⟨.ConfirmedClear, br, 1, bc, cc⟩ 0 hp1 hrest rfl
        simpa [hystStep] using this
      · obtain ⟨rfl, h1, h10, -⟩ := h
        have := ih (p ++ [1]) ⟨.ConfirmedClear, br, cr, bc, cc⟩ 0 hp1 hrest rfl
        have hlt : ¬ (11 ≤ br) := by omega
        simpa [hystStep, hlt] using this
      · obtain ⟨rfl, h1, h10, hsuf⟩ := h
        by_cases hc : 10 < cr + 1
        · have := ih (p ++ [1]) ⟨.ConfirmedClear, br, cr + 1, bc, cc + 1⟩ 0 hp1 hrest rfl
          simpa [hystStep, hc] using this
        · have hs : List.replicate 11 (0 : Int) ++ List.replicate (cr + 1) (1 : Int)
              <:+ p ++ [1] := by
            rw [List.replicate_succ' cr (1 : Int), ← List.append_assoc]
            exact suffix_snoc _ p 1 hsuf
          have := ih (p ++ [1]) ⟨.AccumulatingClearRun, br, cr + 1, bc, cc⟩ 0 hp1 hrest
            ⟨rfl, by dsimp only; omega, by dsimp only; omega, hs⟩
          simpa [hystStep, hc] using this
      · obtain ⟨h11, hsuf⟩ := h
        have hs : List.replicate 11 (0 : Int) ++ List.replicate 1 (1 : Int) <:+ p ++ [1] :=
          suffix_snoc _ p 1 hsuf
        have := ih (p ++ [1]) ⟨.AccumulatingClearRun, br, 1, bc, cc⟩ 0 hp1 hrest
          ⟨rfl, le_refl _, by dsimp only; omega, hs⟩
        simp only [hystStep, hv, if_false, if_pos h11] at this ⊢
        simp at this ⊢
        omega
      · subst h
        have := ih (p ++ [1]) ⟨.ConfirmedClear, br, cr, bc, cc⟩ 0 hp1 hrest rfl
        simpa [hystStep] using this

/-- On a trace without a short burst of clear samples inside a confirmed break
the debouncer with hysteresis counts the maximal runs of at least 11 0s. -/
theorem hystDebounce_eq_longZeroRuns (d : List Int) (hv : Valid01 d) (hburst : NoShortBurst d) :
    hystDebounce 10 d = longZeroRuns d := by
  have h := hystFold_eq_runs d hburst d [] DebounceState.init 0 rfl hv rfl
  simpa [hystDebounce, DebounceState.init, longZeroRuns_eq] using h

theorem sim_step (L : Locals) (S : DebounceState) (v : Int) (hv : v = 0 ∨ v = 1)
    (h : Sim L S) : Sim (liveCase v L) (hystStep 10 S v) := by
  obtain ⟨s, zc, oc, k1, k0⟩ := L
  obtain ⟨ph, br, cr, bc, cc⟩ := S
  obtain ⟨hzc, hst⟩ := h
  simp only at hzc
  subst hzc
  cases s <;> simp only at hst
  · obtain ⟨rfl, rfl⟩ := hst
    rcases hv with rfl | rfl
    · by_cases h9 : (br : Int) + 1 > kMax
      · have h9n : 10 < br + 1 := by simp only [kMax] at h9; omega
        simp [Sim, liveCase, hystStep, h9, h9n]
      · have h9n : ¬ (10 < br + 1) := by simp only [kMax] at h9; omega
        simp [Sim, liveCase, hystStep, h9, h9n]
    · simp [Sim, liveCase, hystStep]
  · obtain ⟨rfl, rfl, hk0⟩ := hst
    rcases hv with rfl | rfl
    · simp [Sim, liveCase, hystStep, hk0]
    · by_cases h9 : (cr : Int) + 1 > kMax
      · have h9n : 10 < cr + 1 := by simp only [kMax] at h9; omega
        simp [Sim, liveCase, hystStep, h9, h9n]
      · have h9n : ¬ (10 < cr + 1) := by simp only [kMax] at h9; omega
        simp [Sim, liveCase, hystStep, h9, h9n, hk0]
  · obtain ⟨rfl, hk0⟩ := hst
    rcases hv with rfl | rfl
    · simp [Sim, liveCase, hystStep, hk0]
    · have hk0n : 10 < k0 := by simpa [kMax] using hk0
      simp [Sim, liveCase, hystStep, hk0n, kMax]
  · subst hst
    rcases hv with rfl | rfl
    · simp [Sim, liveCase, hystStep, kMax]
    · simp [Sim, liveCase, hystStep]

theorem sim_fold (xs : List Int) :
    ∀ (L : Locals) (S : DebounceState), Valid01 xs → Sim L S →
      Sim (zeroFold L xs) (xs.foldl (hystStep 10) S) := by
  induction xs with
  | nil => intro L S _ h; exact h
  | cons v rest ih =>
    intro L S hv h
    rw [zeroFold_cons, List.foldl_cons]
    exact ih _ _ (fun q hq => hv q (List.mem_cons_of_mem _ hq))
      (sim_step L S v (hv v (List.mem_cons_self _ _)) h)

theorem sim_start (x : Int) (hx : x = 0 ∨ x = 1) :
    Sim (startCase x initLocals) (hystStep 10 DebounceState.init x) := by
  rcases hx with rfl | rfl <;> simp [Sim, startCase, initLocals, hystStep, DebounceState.init, kMax]

/-- On a valid trace of `numSamples ≥ 1` samples `countZeros` returns the
blocked count of the debouncer with hysteresis. -/
theorem countZeros_eq_hystDebounce (trace : List Int) (numSamples : Int) (hn : 1 ≤ numSamples)
    (hlen : (trace.length : Int) = numSamples) (hv : Valid01 trace) :
    countZeros trace numSamples = .ret (hystDebounce 10 trace : Int) := by
  cases trace with
  | nil => simp at hlen; omega
  | cons x rest =>
    have hx := hv x (List.mem_cons_self _ _)
    have hrest : Valid01 rest := fun q hq => hv q (List.mem_cons_of_mem _ hq)
    have h := sim_fold rest _ _ hrest (sim_start x hx)
    rw [countZeros_eq_fold x rest numSamples hlen hv, h.1]
    rfl

/-- C4, as the claim states it, fails: on the valid trace of 11 0s, one 1 and 11
more 0s `countZeros` returns 1, while the FSM of spec section 4.1 run with
K = 10 counts 2 and the trace has 2 maximal runs of at least 11 0s. -/
theorem countZeros_spec_fsm_counterexample :
    Valid01 (List.replicate 11 0 ++ [1] ++ List.replicate 11 0) ∧
    countZeros (List.replicate 11 0 ++ [1] ++ List.replicate 11 0) 23 = .ret 1 ∧
    specDebounce 10 (List.replicate 11 0 ++ [1] ++ List.replicate 11 0) = 2 ∧
    longZeroRuns (List.replicate 11 0 ++ [1] ++ List.replicate 11 0) = 2 ∧
    countZeros (List.replicate 11 0 ++ [1] ++ List.replicate 11 0) 23
      ≠ .ret (specDebounce 10 (List.replicate 11 0 ++ [1] ++ List.replicate 11 0) : Int) := by
  decide

/-- C4, amended: on a non-empty trace of 0/1 samples `countZeros` returns the
blocked count of the five-phase FSM with hysteresis run with K = 10, in which a
sample of the opposite polarity restarts accumulation at run length 1 only when
it arrives in a Confirmed state, and gives the unconfirmed run up when it
arrives while accumulating. The FSM of spec section 4.1 counts the maximal runs
of at least 11 consecutive 0s; the result of `countZeros` never exceeds that
number, and equals it when the trace nowhere has 11 0s, then 1 to 10 1s, then
a 0. -/
theorem countZeros_refines_hysteresis (trace : List Int) (numSamples : Int)
    (hn : 1 ≤ numSamples) (hlen : (trace.length : Int) = numSamples) (hv : Valid01 trace) :
    countZeros trace numSamples = .ret (hystDebounce 10 trace : Int) ∧
    specDebounce 10 trace = longZeroRuns trace ∧
    hystDebounce 10 trace ≤ longZeroRuns trace ∧
    (NoShortBurst trace →
      countZeros trace numSamples = .ret (specDebounce 10 trace : Int) ∧
      countZeros trace numSamples = .ret (longZeroRuns trace : Int)) := by
  have hcode := countZeros_eq_hystDebounce trace numSamples hn hlen hv
  refine ⟨hcode, specDebounce_eq_longZeroRuns trace, hystDebounce_le_longZeroRuns trace, ?_⟩
  intro hburst
  rw [hcode, specDebounce_eq_longZeroRuns, hystDebounce_eq_longZeroRuns trace hv hburst]
  exact ⟨rfl, rfl⟩

/-- Witness of C4 amended: 11 0s, 11 1s and 11 0s. -/
theorem countZeros_refines_hysteresis_witness :
    countZeros (List.replicate 11 0 ++ List.replicate 11 1 ++ List.replicate 11 0) 33
      = .ret (hystDebounce 10
          (List.replicate 11 0 ++ List.replicate 11 1 ++ List.replicate 11 0) : Int) ∧
    specDebounce 10 (List.replicate 11 0 ++ List.replicate 11 1 ++ List.replicate 11 0)
      = longZeroRuns (List.replicate 11 0 ++ List.replicate 11 1 ++ List.replicate 11 0) ∧
    hystDebounce 10 (List.replicate 11 0 ++ List.replicate 11 1 ++ List.replicate 11 0)
      ≤ longZeroRuns (List.replicate 11 0 ++ List.replicate 11 1 ++ List.replicate 11 0) ∧
    (NoShortBurst (List.replicate 11 0 ++ List.replicate 11 1 ++ List.replicate 11 0) →
      countZeros (List.replicate 11 0 ++ List.replicate 11 1 ++ List.replicate 11 0) 33
        = .ret (specDebounce 10
            (List.replicate 11 0 ++ List.replicate 11 1 ++ List.replicate 11 0) : Int) ∧
      countZeros (List.replicate 11 0 ++ List.replicate 11 1 ++ List.replicate 11 0) 33
        = .ret (longZeroRuns
            (List.replicate 11 0 ++ List.replicate 11 1 ++ List.replicate 11 0) : Int)) :=
  countZeros_refines_hysteresis
    (List.replicate 11 0 ++ List.replicate 11 1 ++ List.replicate 11 0) 33
    (by decide) (by decide) (by decide)

/-! ## Buffers longer than the number of samples -/

theorem readAt_take (d : List Int) (n : Nat) (i : Int) (hi : i < (n : Int)) :
    readAt (d.take n) i = readAt d i := by
  unfold readAt
  by_cases h0 : 0 ≤ i
  · have hlt : i.toNat < n := by omega
    simp [h0, List.getElem?_take, hlt]
  · simp [h0]

theorem doneCase_take (d : List Int) (n : Nat) (i v : Int) (L : Locals) (hi : i < (n : Int)) :
    doneCase (d.take n) i v L = doneCase d i v L := by
  simp only [doneCase, readAt_take d n (i - 1) (by omega), readAt_take d n (i - 2) (by omega)]

/-- The loop of `countZeros` looks at the first `numSamples` elements of the
buffer only. -/
theorem countZerosLoop_take (d : List Int) (n : Nat) :
    ∀ (fuel : Nat) (i : Int) (L : Locals), 0 ≤ i →
      countZerosLoop (d.take n) (n : Int) fuel i L = countZerosLoop d (n : Int) fuel i L := by
  intro fuel
  induction fuel with
  | zero => intro i L _; rfl
  | succ f ih =>
    intro i L hi
    by_cases hlt : i < (n : Int)
    · simp only [countZerosLoop, if_pos hlt, readAt_take d n i hlt,
        readAt_take d n 0 (by omega), doneCase_take d n i _ L hlt, ih (i + 1) _ (by omega)]
    · simp only [countZerosLoop, if_neg hlt]

theorem countZeros_take (d : List Int) (n : Nat) :
    countZeros d (n : Int) = countZeros (d.take n) (n : Int) := by
  simp only [countZeros, countZerosRun, countZerosLoop_take d n _ 0 _ (le_refl _)]

/-- C11: on a trace of `n ≥ 1` samples, all 0 or 1, the count of the first `m`
samples, `1 ≤ m ≤ n`, is at most the count of the whole trace. -/
theorem countZeros_prefix_le (t : List Int) (n m : Int) (hn : 1 ≤ n)
    (hlen : (t.length : Int) = n) (hv : Valid01 t) (hm1 : 1 ≤ m) (hmn : m ≤ n) :
    ∃ cm cn : Int, countZeros t m = .ret cm ∧ countZeros t n = .ret cn ∧ cm ≤ cn := by
  obtain ⟨k, rfl⟩ : ∃ k : Nat, m = (k : Int) := ⟨m.toNat, by omega⟩
  have hk : k ≤ t.length := by omega
  cases t with
  | nil => simp at hlen; omega
  | cons x rest =>
    obtain ⟨j, rfl⟩ : ∃ j, k = j + 1 := ⟨k - 1, by omega⟩
    have hrest : Valid01 rest := fun q hq => hv q (List.mem_cons_of_mem _ hq)
    have htake : Valid01 (x :: rest.take j) := by
      intro q hq
      rcases List.mem_cons.1 hq with rfl | hq
      · exact hv _ (List.mem_cons_self _ _)
      · exact hrest q (List.mem_of_mem_take hq)
    have hj : j ≤ rest.length := by simpa using hk
    have hm := countZeros_eq_fold x (rest.take j) ((j + 1 : Nat) : Int)
      (by simp [List.length_take, hj]) htake
    have hfull := countZeros_eq_fold x rest n hlen hv
    refine ⟨(zeroFold (startCase x initLocals) (rest.take j)).zeroCount,
      (zeroFold (startCase x initLocals) rest).zeroCount, ?_, hfull, ?_⟩
    · rw [countZeros_take, List.take_succ_cons]
      exact hm
    · conv_rhs => rw [← List.take_append_drop j rest, zeroFold_append]
      exact zeroFold_zeroCount_le _ _

/-- Witness of C11: the first 12 samples of a trace of 25 samples. -/
theorem countZeros_prefix_le_witness :
    ∃ cm cn : Int,
      countZeros (List.replicate 12 0 ++ List.replicate 13 1) 12 = .ret cm ∧
      countZeros (List.replicate 12 0 ++ List.replicate 13 1) 25 = .ret cn ∧ cm ≤ cn :=
  countZeros_prefix_le (List.replicate 12 0 ++ List.replicate 13 1) 25 12 (by decide) (by decide)
    (by decide) (by decide) (by decide)

/-! ## The state of `numEntries` sample by sample -/

theorem entryAfter_zero (first second : List Int) :
    entryAfter first second 0 = (.ENTRY_START, 0) := by
  simp [entryAfter, entryFold_nil]

theorem entryAfter_succ (first second : List Int) (j : Nat) (a b : Int)
    (ha : first[j]? = some a) (hb : second[j]? = some b) :
    entryAfter first second (j + 1)
      = entrySwitch (entryAfter first second j).1 a b (entryAfter first second j).2 := by
  have hz : (first.zip second)[j]? = some (a, b) := List.getElem?_zip_eq_some.2 ⟨ha, hb⟩
  simp only [entryAfter, List.take_succ, hz, Option.toList_some, entryFold_append,
    entryFold_cons, entryFold_nil]

theorem valid01_getElem? (l : List Int) (hv : Valid01 l) (j : Nat) (hj : j < l.length) :
    ∃ a, l[j]? = some a ∧ (a = 0 ∨ a = 1) :=
  ⟨l[j], List.getElem?_eq_getElem hj, hv _ (List.getElem_mem hj)⟩

/-- On valid traces of `size ≥ 1` samples `numEntries` returns the entry count
after all `size` pairs. -/
theorem numEntries_eq_entryAfter (first second : List Int) (size : Int) (hsize : 1 ≤ size)
    (h1 : (first.length : Int) = size) (h2 : (second.length : Int) = size)
    (hv1 : Valid01 first) (hv2 : Valid01 second) :
    numEntries first second size = .ret (entryAfter first second first.length).2 := by
  rw [numEntries_eq_fold first second size hsize h1 h2 hv1 hv2, entryAfter,
    List.take_of_length_le]
  simp only [List.length_zip]
  omega

/-- C12: on 0/1 traces of `size ≥ 2` samples in which both beams are clear at
the indices below `i ≥ 1`, the first beam is clear and the second blocked at
index `i`, and the two beams are never both clear after index `i`, `numEntries`
returns 0. -/
theorem numEntries_wrong_way (first second : List Int) (size : Int) (i : Nat)
    (hsize : 2 ≤ size) (h1 : (first.length : Int) = size) (h2 : (second.length : Int) = size)
    (hv1 : Valid01 first) (hv2 : Valid01 second) (hi : 1 ≤ i)
    (hclear : ∀ j, j < i → first[j]? = some 1 ∧ second[j]? = some 1)
    (hwrong : first[i]? = some 1 ∧ second[i]? = some 0)
    (hafter : ∀ j, i < j → ¬ (first[j]? = some 1 ∧ second[j]? = some 1)) :
    numEntries first second size = .ret 0 := by
  have hilt : i < first.length := by
    by_contra h
    rw [List.getElem?_eq_none (by omega)] at hwrong
    exact absurd hwrong.1 (by simp)
  have key : ∀ j, j ≤ first.length →
      (1 ≤ j → j ≤ i → entryAfter first second j = (.EMPTY, 0)) ∧
      (i < j → entryAfter first second j = (.WRONG_WAY, 0)) := by
    intro j
    induction j with
    | zero => intro _; exact ⟨fun h => absurd h (by omega), fun h => absurd h (by omega)⟩
    | succ j ih =>
      intro hj
      obtain ⟨a, ha, hav⟩ := valid01_getElem? first hv1 j (by omega)
      obtain ⟨b, hb, hbv⟩ := valid01_getElem? second hv2 j (by omega)
      have hstep := entryAfter_succ first second j a b ha hb
      obtain ⟨ihE, ihW⟩ := ih (by omega)
      constructor
      · intro _ hji
        have hc := hclear j (by omega)
        rw [ha, hb] at hc
        obtain ⟨rfl, rfl⟩ : a = 1 ∧ b = 1 := ⟨by simpa using hc.1, by simpa using hc.2⟩
        rcases Nat.eq_zero_or_pos j with h0 | hpos
        · subst h0
          rw [hstep, entryAfter_zero]
          simp [entrySwitch]
        · rw [hstep, ihE hpos (by omega)]
          simp [entrySwitch]
      · intro hij
        rcases Nat.lt_or_ge i j with hlt | hge
        · have hna := hafter j hlt
          rw [ha, hb] at hna
          rw [hstep, ihW hlt]
          rcases hav with rfl | rfl <;> rcases hbv with rfl | rfl <;> simp [entrySwitch] at hna ⊢
        · have hji : j = i := by omega
          subst hji
          rw [ha, hb] at hwrong
          obtain ⟨rfl, rfl⟩ : a = 1 ∧ b = 0 := ⟨by simpa using hwrong.1, by simpa using hwrong.2⟩
          rw [hstep, ihE hi (le_refl _)]
          simp [entrySwitch]
  rw [numEntries_eq_entryAfter first second size (by omega) h1 h2 hv1 hv2,
    (key first.length (le_refl _)).2 hilt]

/-- Witness of C12: both beams block right after the wrong-way sample. -/
theorem numEntries_wrong_way_witness : numEntries [1, 1, 0, 0] [1, 0, 0, 0] 4 = .ret 0 :=
  numEntries_wrong_way [1, 1, 0, 0] [1, 0, 0, 0] 4 1 (by decide) (by decide) (by decide)
    (by decide) (by decide) (by decide)
    (by intro j hj; obtain rfl : j = 0 := by omega
        exact ⟨rfl, rfl⟩)
    ⟨rfl, rfl⟩
    (by
      intro j hj h
      have h4 : j < 4 := by
        by_contra hge
        have hnone : ([1, 1, 0, 0] : List Int)[j]? = none :=
          List.getElem?_eq_none (by simp; omega)
        rw [hnone] at h
        exact absurd h.1 (by simp)
      have h23 : j = 2 ∨ j = 3 := by omega
      rcases h23 with rfl | rfl <;> exact absurd h.1 (by decide))

/-! ## `main` and the failure sentinel -/

/-- C13 fails on the code: when the GPIO cannot be initialised every reading of
`laserDiodeStatus` is -1, all four analysis calls of a one-second run return the
sentinel -1, and `main` still calls `outputMessage`, with the four values -1,
and returns 0. -/
theorem main_reports_failed_counts :
    countZeros (recordLasers (fun _ => -1) (fun _ => -1) 1).1 100 = .ret (-1) ∧
    numEntries (recordLasers (fun _ => -1) (fun _ => -1) 1).1
      (recordLasers (fun _ => -1) (fun _ => -1) 1).2 100 = .ret (-1) ∧
    main 2 1 (fun _ => -1) (fun _ => -1) = some ⟨some (-1, -1, -1, -1), 0⟩ := by
  decide

/-- C14, as the claim states it, fails: in `WRONG_WAY` a sample with both beams
blocked does not lead to `EMPTY`, and on `first = [1,1,0,0,0,1,1]`,
`second = [1,0,0,1,0,0,1]` with size 7 `numEntries` does not return 1. -/
theorem wrong_way_both_blocked_counterexample :
    (entrySwitch .WRONG_WAY 0 0 0).1 ≠ .EMPTY ∧
    numEntries [1, 1, 0, 0, 0, 1, 1] [1, 0, 0, 1, 0, 0, 1] 7 ≠ .ret 1 := by
  decide

/-- C14, amended: in the state `WRONG_WAY` the next state is `EMPTY` exactly
when the current 0/1 sample has both beams clear; on every other sample, both
beams blocked included, the state stays `WRONG_WAY`; the entry count does not
change. The trace pair `[1,1,0,0,0,1,1]`, `[1,0,0,1,0,0,1]` yields 0 entries. -/
theorem wrong_way_leaves_on_both_clear (a b c : Int) (ha : a = 0 ∨ a = 1) (hb : b = 0 ∨ b = 1) :
    ((entrySwitch .WRONG_WAY a b c).1 = .EMPTY ↔ a = 1 ∧ b = 1) ∧
    (¬ (a = 1 ∧ b = 1) → entrySwitch .WRONG_WAY a b c = (.WRONG_WAY, c)) ∧
    (entrySwitch .WRONG_WAY a b c).2 = c ∧
    numEntries [1, 1, 0, 0, 0, 1, 1] [1, 0, 0, 1, 0, 0, 1] 7 = .ret 0 := by
  refine ⟨?_, ?_, ?_, by decide⟩
  · rcases ha with rfl | rfl <;> rcases hb with rfl | rfl <;> simp [entrySwitch]
  · rcases ha with rfl | rfl <;> rcases hb with rfl | rfl <;> simp [entrySwitch]
  · rcases ha with rfl | rfl <;> rcases hb with rfl | rfl <;> simp [entrySwitch]

/-- Witness of C14 amended: both beams blocked in `WRONG_WAY`. -/
theorem wrong_way_leaves_on_both_clear_witness :
    ((entrySwitch .WRONG_WAY 0 0 0).1 = .EMPTY ↔ (0 : Int) = 1 ∧ (0 : Int) = 1) ∧
    (¬ ((0 : Int) = 1 ∧ (0 : Int) = 1) → entrySwitch .WRONG_WAY 0 0 0 = (.WRONG_WAY, 0)) ∧
    (entrySwitch .WRONG_WAY 0 0 0).2 = 0 ∧
    numEntries [1, 1, 0, 0, 0, 1, 1] [1, 0, 0, 1, 0, 0, 1] 7 = .ret 0 :=
  wrong_way_leaves_on_both_clear 0 0 0 (Or.inl rfl) (Or.inl rfl)

/-! ## A confirmed break that goes on -/

theorem hystFold_zeros_confirmed (m : Nat) (S : DebounceState)
    (hS : S.phase = .ConfirmedBlocked) :
    (List.replicate m (0 : Int)).foldl (hystStep 10) S = S := by
  induction m with
  | zero => rfl
  | succ m ih =>
    have hstep : hystStep 10 S 0 = S := by simp [hystStep, hS]
    rw [List.replicate_succ, List.foldl_cons, hstep, ih]

theorem hystFold_zeros_accumulating (n : Nat) :
    ∀ S : DebounceState, S.phase = .AccumulatingBlockedRun → 1 ≤ n → 10 < S.blockedRun + n →
      ((List.replicate n (0 : Int)).foldl (hystStep 10) S).phase = .ConfirmedBlocked := by
  induction n with
  | zero => intro S _ h; omega
  | succ n ih =>
    intro S hS _ hlen
    obtain ⟨ph, br, cr, bc, cc⟩ := S
    simp only at hS hlen
    subst hS
    rw [List.replicate_succ, List.foldl_cons]
    by_cases hbr : 10 < br + 1
    · have hstep : hystStep 10 ⟨.AccumulatingBlockedRun, br, cr, bc, cc⟩ 0
          = ⟨.ConfirmedBlocked, br + 1, cr, bc + 1, cc⟩ := by simp [hystStep, hbr]
      rw [hstep, hystFold_zeros_confirmed n _ rfl]
    · have hstep : hystStep 10 ⟨.AccumulatingBlockedRun, br, cr, bc, cc⟩ 0
          = ⟨.AccumulatingBlockedRun, br + 1, cr, bc, cc⟩ := by simp [hystStep, hbr]
      rw [hstep]
      exact ih _ rfl (by omega) (by dsimp only; omega)

/-- After 11 consecutive 0s the debouncer with hysteresis is in
`ConfirmedBlocked`, whatever its state before them. -/
theorem hystFold_eleven_zeros (S : DebounceState) :
    ((List.replicate 11 (0 : Int)).foldl (hystStep 10) S).phase = .ConfirmedBlocked := by
  obtain ⟨ph, br, cr, bc, cc⟩ := S
  cases ph
  · have hstep : hystStep 10 ⟨.AwaitingFirstRun, br, cr, bc, cc⟩ 0
        = ⟨.AccumulatingBlockedRun, 1, cr, bc, cc⟩ := by simp [hystStep]
    rw [List.replicate_succ, List.foldl_cons, hstep]
    exact hystFold_zeros_accumulating 10 _ rfl (by omega) (by dsimp only; omega)
  · exact hystFold_zeros_accumulating 11 _ rfl (by omega) (by dsimp only; omega)
  · have hstep : hystStep 10 ⟨.AccumulatingClearRun, br, cr, bc, cc⟩ 0
        = ⟨.ConfirmedBlocked, br, cr, bc, cc⟩ := by simp [hystStep]
    rw [List.replicate_succ, List.foldl_cons, hstep, hystFold_zeros_confirmed 10 _ rfl]
  · rw [hystFold_zeros_confirmed 11 _ rfl]
  · have hstep : hystStep 10 ⟨.ConfirmedClear, br, cr, bc, cc⟩ 0
        = ⟨.AccumulatingBlockedRun, 1, cr, bc, cc⟩ := by simp [hystStep]
    rw [List.replicate_succ, List.foldl_cons, hstep]
    exact hystFold_zeros_accumulating 10 _ rfl (by omega) (by dsimp only; omega)

theorem valid01_append_zeros (t : List Int) (m : Nat) (hv : Valid01 t) :
    Valid01 (t ++ List.replicate m 0) := by
  intro x hx
  rcases List.mem_append.1 hx with h | h
  · exact hv x h
  · exact Or.inl (List.eq_of_mem_replicate h)

/-- When a non-empty 0/1 trace ends in at least 11 consecutive 0s, appending
`m` further 0s leaves the count that `countZeros` returns unchanged. -/
theorem countZeros_append_zeros_eq (t : List Int) (m : Nat) (hne : t ≠ []) (hv : Valid01 t)
    (hend : List.replicate 11 (0 : Int) <:+ t) :
    ∃ c : Int, countZeros t (t.length : Int) = .ret c ∧
      countZeros (t ++ List.replicate m 0) ((t ++ List.replicate m 0).length : Int) = .ret c := by
  have hlen : 1 ≤ t.length := by
    cases t with
    | nil => exact absurd rfl hne
    | cons x rest => simp
  have h1 := countZeros_eq_hystDebounce t (t.length : Int) (by omega) rfl hv
  have h2 := countZeros_eq_hystDebounce (t ++ List.replicate m 0)
    ((t ++ List.replicate m 0).length : Int) (by rw [List.length_append]; omega) rfl
    (valid01_append_zeros t m hv)
  refine ⟨_, h1, ?_⟩
  rw [h2]
  obtain ⟨pre, rfl⟩ := hend
  have hstate := hystFold_eleven_zeros (pre.foldl (hystStep 10) DebounceState.init)
  simp only [hystDebounce, List.foldl_append]
  rw [hystFold_zeros_confirmed m _ hstate]

/-! ## The first sample of `numEntries` -/

/-- C18: on 0/1 traces of `size ≥ 1` samples, replacing the samples at index 0
by any other values in {0,1} leaves the count that `numEntries` returns
unchanged. -/
theorem numEntries_ignores_first_sample (first second : List Int) (size : Int) (a b : Int)
    (hsize : 1 ≤ size) (h1 : (first.length : Int) = size) (h2 : (second.length : Int) = size)
    (hv1 : Valid01 first) (hv2 : Valid01 second) (ha : a = 0 ∨ a = 1) (hb : b = 0 ∨ b = 1) :
    ∃ c : Int, numEntries first second size = .ret c ∧
      numEntries (first.set 0 a) (second.set 0 b) size = .ret c := by
  cases first with
  | nil => simp at h1; omega
  | cons x f =>
    cases second with
    | nil => simp at h2; omega
    | cons y s =>
      have hv1' : Valid01 (a :: f) := by
        intro q hq
        rcases List.mem_cons.1 hq with rfl | hq
        · exact ha
        · exact hv1 q (List.mem_cons_of_mem _ hq)
      have hv2' : Valid01 (b :: s) := by
        intro q hq
        rcases List.mem_cons.1 hq with rfl | hq
        · exact hb
        · exact hv2 q (List.mem_cons_of_mem _ hq)
      refine ⟨_, numEntries_eq_fold _ _ size hsize h1 h2 hv1 hv2, ?_⟩
      rw [List.set_cons_zero, List.set_cons_zero,
        numEntries_eq_fold (a :: f) (b :: s) size hsize (by simpa using h1) (by simpa using h2)
          hv1' hv2']
      simp only [List.zip_cons_cons, entryFold_cons, entrySwitch]

/-- Witness of C18: a crossing whose first samples are changed from (1,1) to (0,0). -/
theorem numEntries_ignores_first_sample_witness :
    ∃ c : Int, numEntries [1, 0, 0, 1, 1] [1, 1, 0, 0, 1] 5 = .ret c ∧
      numEntries (([1, 0, 0, 1, 1] : List Int).set 0 0) (([1, 1, 0, 0, 1] : List Int).set 0 0) 5
        = .ret c :=
  numEntries_ignores_first_sample [1, 0, 0, 1, 1] [1, 1, 0, 0, 1] 5 0 0 (by decide) (by decide)
    (by decide) (by decide) (by decide) (Or.inl rfl) (Or.inl rfl)

/-! ## `countZeros` as a two-sided hysteresis filter -/

theorem filterRel_step (S : DebounceState) (F : FilterState) (v : Int) (hv : v = 0 ∨ v = 1)
    (h : FilterRel S F) : FilterRel (hystStep 10 S v) (filterStep F v) := by
  obtain ⟨ph, br, cr, bc, cc⟩ := S
  obtain ⟨bl, z, o, fl⟩ := F
  obtain ⟨hfl, hst⟩ := h
  simp only at hfl
  subst hfl
  cases ph <;> simp only at hst
  · obtain ⟨rfl, rfl⟩ := hst
    rcases hv with rfl | rfl <;> simp [FilterRel, hystStep, filterStep]
  · obtain ⟨rfl, rfl, hle⟩ := hst
    rcases hv with rfl | rfl
    · by_cases h10 : z = 10
      · subst h10; simp [FilterRel, hystStep, filterStep]
      · have hlt : ¬ (10 < z + 1) := by omega
        have hne : ¬ (z + 1 = 11) := by omega
        simp only [FilterRel, hystStep, filterStep, hlt, hne, if_true, if_false, and_false,
          true_and, and_self]
        omega
    · simp [FilterRel, hystStep, filterStep]
  · obtain ⟨rfl, rfl, hle⟩ := hst
    rcases hv with rfl | rfl
    · simp [FilterRel, hystStep, filterStep]
    · by_cases h10 : o = 10
      · subst h10; simp [FilterRel, hystStep, filterStep]
      · have hlt : ¬ (10 < o + 1) := by omega
        have hne : ¬ (o + 1 = 11) := by omega
        have h01 : ¬ ((1 : Int) = 0) := by decide
        simp only [FilterRel, hystStep, filterStep, hlt, hne, h01, if_true, if_false, and_false,
          true_and, and_self]
        omega
  · obtain ⟨rfl, rfl⟩ := hst
    rcases hv with rfl | rfl <;> simp [FilterRel, hystStep, filterStep]
  · obtain ⟨rfl, rfl⟩ := hst
    rcases hv with rfl | rfl <;> simp [FilterRel, hystStep, filterStep]

theorem filterRel_fold (xs : List Int) :
    ∀ (S : DebounceState) (F : FilterState), Valid01 xs → FilterRel S F →
      FilterRel (xs.foldl (hystStep 10) S) (xs.foldl filterStep F) := by
  induction xs with
  | nil => intro S F _ h; exact h
  | cons v rest ih =>
    intro S F hv h
    rw [List.foldl_cons, List.foldl_cons]
    exact ih _ _ (fun q hq => hv q (List.mem_cons_of_mem _ hq))
      (filterRel_step S F v (hv v (List.mem_cons_self _ _)) h)

theorem hystDebounce_eq_hysteresisFlips (trace : List Int) (hv : Valid01 trace) :
    hystDebounce 10 trace = hysteresisFlips trace := by
  have h := filterRel_fold trace DebounceState.init ⟨false, 0, 0, 0⟩ hv
    (by simp [FilterRel, DebounceState.init])
  exact h.1.symm

/-- C19: on a non-empty 0/1 trace `countZeros` returns the number of
clear-to-blocked flips of the two-sided hysteresis filter that starts clear,
flips to blocked on the 11th consecutive 0 and back to clear on the 11th
consecutive 1; 11 0s, one 1, 11 0s yields 1 and 11 0s, 11 1s, 11 0s yields 2. -/
theorem countZeros_eq_hysteresisFlips (trace : List Int) (numSamples : Int)
    (hn : 1 ≤ numSamples) (hlen : (trace.length : Int) = numSamples) (hv : Valid01 trace) :
    countZeros trace numSamples = .ret (hysteresisFlips trace : Int) ∧
    countZeros (List.replicate 11 0 ++ [1] ++ List.replicate 11 0) 23 = .ret 1 ∧
    countZeros (List.replicate 11 0 ++ List.replicate 11 1 ++ List.replicate 11 0) 33
      = .ret 2 := by
  refine ⟨?_, by decide, by decide⟩
  rw [countZeros_eq_hystDebounce trace numSamples hn hlen hv,
    hystDebounce_eq_hysteresisFlips trace hv]

/-- Witness of C19: a break, a burst of three 1s, and the break going on. -/
theorem countZeros_eq_hysteresisFlips_witness :
    countZeros (List.replicate 12 0 ++ [1, 1, 1] ++ List.replicate 12 0) 27
      = .ret (hysteresisFlips (List.replicate 12 0 ++ [1, 1, 1] ++ List.replicate 12 0) : Int) ∧
    countZeros (List.replicate 11 0 ++ [1] ++ List.replicate 11 0) 23 = .ret 1 ∧
    countZeros (List.replicate 11 0 ++ List.replicate 11 1 ++ List.replicate 11 0) 33 = .ret 2 :=
  countZeros_eq_hysteresisFlips (List.replicate 12 0 ++ [1, 1, 1] ++ List.replicate 12 0) 27
    (by decide) (by decide) (by decide)

/-! ## The `DONE` case of `countZeros` is dead -/

theorem startCase_ne_done (v0 : Int) (L : Locals) (hL : L.s ≠ .DONE) :
    (startCase v0 L).s ≠ .DONE := by
  simp only [startCase]
  split_ifs <;> simp [hL]

theorem liveCase_ne_done (v : Int) (L : Locals) (hL : L.s ≠ .DONE) :
    (liveCase v L).s ≠ .DONE := by
  obtain ⟨s, zc, oc, k1, k0⟩ := L
  cases s <;> simp only [liveCase] <;> (try split_ifs) <;> simp at hL ⊢

theorem countZerosHeads_ne_done (d : List Int) (n : Int) :
    ∀ (fuel : Nat) (i : Int) (L : Locals), L.s ≠ .DONE →
      ∀ h ∈ countZerosHeads d n fuel i L, h.2.s ≠ .DONE := by
  intro fuel
  induction fuel with
  | zero => intro i L _ h hh; simp [countZerosHeads] at hh
  | succ f ih =>
    intro i L hL h hh
    simp only [countZerosHeads, List.mem_cons] at hh
    rcases hh with rfl | hh
    · exact hL
    · by_cases hlt : i < n
      · rw [if_pos hlt] at hh
        cases hr : readAt d i with
        | none => simp [hr] at hh
        | some v =>
          simp only [hr] at hh
          by_cases hv : v ≠ 1 ∧ v ≠ 0
          · simp [hv] at hh
          · rw [if_neg hv] at hh
            cases hs : L.s
            all_goals first
              | exact absurd hs hL
              | (simp only [hs] at hh
                 exact ih _ _ (liveCase_ne_done v L hL) h hh)
              | (simp only [hs] at hh
                 cases hr0 : readAt d 0 with
                 | none => simp [hr0] at hh
                 | some v0 =>
                   simp only [hr0] at hh
                   exact ih _ _ (startCase_ne_done v0 L hL) h hh)
      · simp [hlt] at hh

theorem countZerosLoop_reads (d : List Int) (n : Int) :
    ∀ (fuel : Nat) (i : Int) (L : Locals), 0 ≤ i → L.s ≠ .DONE →
      ∀ r ∈ (countZerosLoop d n fuel i L).reads, 0 ≤ r ∧ r < n := by
  intro fuel
  induction fuel with
  | zero => intro i L _ _ r hr; simp [countZerosLoop] at hr
  | succ f ih =>
    intro i L hi hL r hr
    by_cases hlt : i < n
    · simp only [countZerosLoop, if_pos hlt] at hr
      cases hrd : readAt d i with
      | none =>
        simp only [hrd, List.mem_singleton] at hr
        subst hr; exact ⟨hi, hlt⟩
      | some v =>
        simp only [hrd] at hr
        by_cases hv : v ≠ 1 ∧ v ≠ 0
        · simp only [if_pos hv, List.mem_singleton] at hr
          subst hr; exact ⟨hi, hlt⟩
        · rw [if_neg hv] at hr
          cases hs : L.s
          all_goals first
            | exact absurd hs hL
            | (simp only [hs, Run.after, List.mem_append, List.mem_singleton] at hr
               rcases hr with rfl | hr
               · exact ⟨hi, hlt⟩
               · exact ih _ _ (by omega) (liveCase_ne_done v L hL) r hr)
            | (simp only [hs] at hr
               cases hr0 : readAt d 0 with
               | none =>
                 simp only [hr0, List.mem_cons, List.mem_singleton, List.not_mem_nil,
                   or_false] at hr
                 rcases hr with rfl | rfl
                 · exact ⟨hi, hlt⟩
                 · exact ⟨le_refl _, by omega⟩
               | some v0 =>
                 simp only [hr0, Run.after, List.mem_append, List.mem_cons, List.mem_singleton,
                   List.not_mem_nil, or_false] at hr
                 rcases hr with (rfl | rfl) | hr
                 · exact ⟨hi, hlt⟩
                 · exact ⟨le_refl _, by omega⟩
                 · exact ih _ _ (by omega) (startCase_ne_done v0 L hL) r hr)
    · simp [countZerosLoop, hlt] at hr

/-- C17: for every `numSamples` and every buffer, the state of `countZeros` is
never `DONE` when the loop tests its condition, so the `DONE` case never runs,
and every index that `countZeros` reads is in `[0, numSamples)`. -/
theorem countZeros_done_unreachable (zeroOneData : List Int) (numSamples : Int) :
    (∀ h ∈ countZerosHeadsRun zeroOneData numSamples, h.2.s ≠ .DONE) ∧
    (∀ r ∈ (countZerosRun zeroOneData numSamples).reads, 0 ≤ r ∧ r < numSamples) := by
  constructor
  · intro h hh
    simp only [countZerosHeadsRun] at hh
    split_ifs at hh
    · simp at hh
    · simp at hh
    · exact countZerosHeads_ne_done _ _ _ _ _ (by simp) h hh
  · intro r hr
    simp only [countZerosRun] at hr
    split_ifs at hr
    · simp at hr
    · simp at hr
    · exact countZerosLoop_reads _ _ _ _ _ (le_refl _) (by simp) r hr

/-! ## Every counted entry is a crossing -/

theorem crossInv_keep (first second : List Int) (qs : List Quad) (n : Nat) (c : Int)
    (e1 : EntryState) (st : EntryState × Int) (hst : st = (e1, c)) (hc : c = (qs.length : Int))
    (hpw : qs.Pairwise (fun p q => p.m < q.i))
    (hall : ∀ q ∈ qs, IsCrossing first second q ∧ q.m < n)
    (hp : Pending first second qs (n + 1) e1) : CrossInv first second (n + 1) st := by
  subst hst
  exact ⟨qs, hc, hpw, fun q hq => ⟨(hall q hq).1, Nat.lt_succ_of_lt (hall q hq).2⟩, hp⟩

theorem crossInv_step (first second : List Int) (n : Nat) (st : EntryState × Int) (a b : Int)
    (ha : first[n]? = some a) (hb : second[n]? = some b)
    (hav : a = 0 ∨ a = 1) (hbv : b = 0 ∨ b = 1) (h : CrossInv first second n st) :
    CrossInv first second (n + 1) (entrySwitch st.1 a b st.2) := by
  obtain ⟨e, c⟩ := st
  obtain ⟨qs, hc, hpw, hall, hpend⟩ := h
  simp only at hc hpend
  have hbelow : ∀ q ∈ qs, q.m < n := fun q hq => (hall q hq).2
  have hn1 : 1 ≤ n + 1 := Nat.succ_le_succ (Nat.zero_le n)
  have hnn : n < n + 1 := Nat.lt_succ_self n
  cases e <;> simp only [Pending] at hpend
  · -- ENTRY_START
    exact crossInv_keep first second qs n c .EMPTY _ (by simp [entrySwitch]) hc hpw hall hn1
  · -- BROKE_FIRST
    obtain ⟨i, hq, hi1, hin, hfi, hsi⟩ := hpend
    rcases hav with rfl | rfl <;> rcases hbv with rfl | rfl
    · exact crossInv_keep first second qs n c .BROKE_SECOND _ (by simp [entrySwitch]) hc hpw hall
        ⟨i, n, hq, hi1, hin, hnn, hfi, hsi, ha, hb⟩
    · exact crossInv_keep first second qs n c .BROKE_FIRST _ (by simp [entrySwitch]) hc hpw hall
        ⟨i, hq, hi1, Nat.lt_succ_of_lt hin, hfi, hsi⟩
    · exact crossInv_keep first second qs n c .EMPTY _ (by simp [entrySwitch]) hc hpw hall hn1
    · exact crossInv_keep first second qs n c .EMPTY _ (by simp [entrySwitch]) hc hpw hall hn1
  · -- BROKE_SECOND
    obtain ⟨i, j, hq, hi1, hij, hjn, hfi, hsi, hfj, hsj⟩ := hpend
    rcases hav with rfl | rfl <;> rcases hbv with rfl | rfl
    · exact crossInv_keep first second qs n c .BROKE_SECOND _ (by simp [entrySwitch]) hc hpw hall
        ⟨i, j, hq, hi1, hij, Nat.lt_succ_of_lt hjn, hfi, hsi, hfj, hsj⟩
    · exact crossInv_keep first second qs n c .BROKE_FIRST _ (by simp [entrySwitch]) hc hpw hall
        ⟨i, hq, hi1, by omega, hfi, hsi⟩
    · exact crossInv_keep first second qs n c .CLEARED_FIRST _ (by simp [entrySwitch]) hc hpw hall
        ⟨i, j, n, hq, hi1, hij, hjn, hnn, hfi, hsi, hfj, hsj, ha, hb⟩
    · exact crossInv_keep first second qs n c .BROKE_SECOND _ (by simp [entrySwitch]) hc hpw hall
        ⟨i, j, hq, hi1, hij, Nat.lt_succ_of_lt hjn, hfi, hsi, hfj, hsj⟩
  · -- CLEARED_FIRST
    obtain ⟨i, j, k, hq, hi1, hij, hjk, hkn, hfi, hsi, hfj, hsj, hfk, hsk⟩ := hpend
    rcases hav with rfl | rfl <;> rcases hbv with rfl | rfl
    · exact crossInv_keep first second qs n c .BROKE_SECOND _ (by simp [entrySwitch]) hc hpw hall
        ⟨i, n, hq, hi1, by omega, hnn, hfi, hsi, ha, hb⟩
    · exact crossInv_keep first second qs n c .CLEARED_FIRST _ (by simp [entrySwitch]) hc hpw hall
        ⟨i, j, k, hq, hi1, hij, hjk, Nat.lt_succ_of_lt hkn, hfi, hsi, hfj, hsj, hfk, hsk⟩
    · exact crossInv_keep first second qs n c .CLEARED_FIRST _ (by simp [entrySwitch]) hc hpw hall
        ⟨i, j, k, hq, hi1, hij, hjk, Nat.lt_succ_of_lt hkn, hfi, hsi, hfj, hsj, hfk, hsk⟩
    · have hsw : entrySwitch .CLEARED_FIRST 1 1 c = (.EMPTY, c + 1) := by simp [entrySwitch]
      rw [hsw]
      refine ⟨qs ++ [⟨i, j, k, n⟩], by simp [hc], ?_, ?_, hn1⟩
      · rw [List.pairwise_append]
        refine ⟨hpw, List.pairwise_singleton _ _, ?_⟩
        intro p hp q hq1
        rw [List.mem_singleton] at hq1
        subst hq1
        exact hq p hp
      · intro q hq1
        rcases List.mem_append.1 hq1 with hq1 | hq1
        · exact ⟨(hall q hq1).1, Nat.lt_succ_of_lt (hall q hq1).2⟩
        · rw [List.mem_singleton] at hq1
          subst hq1
          exact ⟨⟨hi1, hij, hjk, hkn, hfi, hsi, hfj, hsj, hfk, hsk, ha, hb⟩, hnn⟩
  · -- WRONG_WAY
    rcases hav with rfl | rfl <;> rcases hbv with rfl | rfl
    · exact crossInv_keep first second qs n c .WRONG_WAY _ (by simp [entrySwitch]) hc hpw hall hn1
    · exact crossInv_keep first second qs n c .WRONG_WAY _ (by simp [entrySwitch]) hc hpw hall hn1
    · exact crossInv_keep first second qs n c .WRONG_WAY _ (by simp [entrySwitch]) hc hpw hall hn1
    · exact crossInv_keep first second qs n c .EMPTY _ (by simp [entrySwitch]) hc hpw hall hn1
  · -- EMPTY
    rcases hav with rfl | rfl <;> rcases hbv with rfl | rfl
    · exact crossInv_keep first second qs n c .EMPTY _ (by simp [entrySwitch]) hc hpw hall hn1
    · exact crossInv_keep first second qs n c .BROKE_FIRST _ (by simp [entrySwitch]) hc hpw hall
        ⟨n, hbelow, hpend, hnn, ha, hb⟩
    · exact crossInv_keep first second qs n c .WRONG_WAY _ (by simp [entrySwitch]) hc hpw hall hn1
    · exact crossInv_keep first second qs n c .EMPTY _ (by simp [entrySwitch]) hc hpw hall hn1

theorem crossInv_entryAfter (first second : List Int) (hlen : first.length = second.length)
    (hv1 : Valid01 first) (hv2 : Valid01 second) :
    ∀ n, n ≤ first.length → CrossInv first second n (entryAfter first second n) := by
  intro n
  induction n with
  | zero =>
    intro _
    rw [entryAfter_zero]
    exact ⟨[], by simp, List.Pairwise.nil, by simp, by simp [Pending]⟩
  | succ n ih =>
    intro hn
    obtain ⟨a, ha, hav⟩ := valid01_getElem? first hv1 n (by omega)
    obtain ⟨b, hb, hbv⟩ := valid01_getElem? second hv2 n (by omega)
    rw [entryAfter_succ first second n a b ha hb]
    exact crossInv_step first second n _ a b ha hb hav hbv (ih (by omega))

/-- C16: on 0/1 traces of `size ≥ 1` samples the count that `numEntries` returns
is the number of quadruples of a list of crossings, each with indices
`1 ≤ i < j < k < m < size` and samples (0,1), (0,0), (1,0), (1,1) there, that lie
one entirely after the other; a trace pair without any such quadruple yields 0. -/
theorem numEntries_counts_crossings (first second : List Int) (size : Int) (hsize : 1 ≤ size)
    (h1 : (first.length : Int) = size) (h2 : (second.length : Int) = size)
    (hv1 : Valid01 first) (hv2 : Valid01 second) :
    (∃ qs : List Quad, numEntries first second size = .ret (qs.length : Int) ∧
      qs.Pairwise (fun p q => p.m < q.i) ∧
      ∀ q ∈ qs, IsCrossing first second q ∧ (q.m : Int) < size) ∧
    ((∀ q : Quad, ¬ IsCrossing first second q) → numEntries first second size = .ret 0) := by
  have hret := numEntries_eq_entryAfter first second size hsize h1 h2 hv1 hv2
  obtain ⟨qs, hc, hpw, hall, -⟩ :=
    crossInv_entryAfter first second (by omega) hv1 hv2 first.length (le_refl _)
  constructor
  · refine ⟨qs, by rw [hret, hc], hpw, fun q hq => ⟨(hall q hq).1, ?_⟩⟩
    have := (hall q hq).2
    omega
  · intro hnone
    cases qs with
    | nil => rw [hret, hc]; rfl
    | cons q rest => exact absurd (hall q (List.mem_cons_self _ _)).1 (hnone q)

/-- Witness of C16: a crossing, then an object that breaks the first beam and
backs out. -/
theorem numEntries_counts_crossings_witness :
    (∃ qs : List Quad,
      numEntries [1, 0, 0, 1, 1, 0, 1] [1, 1, 0, 0, 1, 1, 1] 7 = .ret (qs.length : Int) ∧
      qs.Pairwise (fun p q => p.m < q.i) ∧
      ∀ q ∈ qs, IsCrossing [1, 0, 0, 1, 1, 0, 1] [1, 1, 0, 0, 1, 1, 1] q ∧ (q.m : Int) < 7) ∧
    ((∀ q : Quad, ¬ IsCrossing [1, 0, 0, 1, 1, 0, 1] [1, 1, 0, 0, 1, 1, 1] q) →
      numEntries [1, 0, 0, 1, 1, 0, 1] [1, 1, 0, 0, 1, 1, 1] 7 = .ret 0) :=
  numEntries_counts_crossings [1, 0, 0, 1, 1, 0, 1] [1, 1, 0, 0, 1, 1, 1] 7 (by decide)
    (by decide) (by decide) (by decide) (by decide)

/-! ## Entries and exits are never counted on the same sample -/

theorem numEntriesLoop_take (l1 l2 : List Int) (m : Nat) :
    ∀ (fuel : Nat) (e : EntryState) (c cnt : Int), (e = .ENTRY_DONE ∨ c < (m : Int)) →
      numEntriesLoop (l1.take m) (l2.take m) (m : Int) fuel e c cnt
        = numEntriesLoop l1 l2 (m : Int) fuel e c cnt := by
  intro fuel
  induction fuel with
  | zero => intro e c cnt _; rfl
  | succ f ih =>
    intro e c cnt hc
    by_cases he : e = .ENTRY_DONE
    · simp only [numEntriesLoop, if_pos he]
    · have hlt : c < (m : Int) := by tauto
      simp only [numEntriesLoop, if_neg he, readAt_take l1 m c hlt, readAt_take l2 m c hlt]
      cases readAt l1 c with
      | none => rfl
      | some a =>
        cases readAt l2 c with
        | none => rfl
        | some b =>
          simp only
          by_cases hge : c + 1 ≥ (m : Int)
          · simp only [if_pos hge, ih .ENTRY_DONE (c + 1) _ (Or.inl rfl)]
          · simp only [if_neg hge, ih _ (c + 1) _ (Or.inr (by omega))]

theorem take_zip (l1 l2 : List Int) (m : Nat) :
    (l1.zip l2).take m = (l1.take m).zip (l2.take m) := by
  rw [List.zip_eq_zipWith, List.zip_eq_zipWith, List.take_zipWith]

theorem valid01_take (l : List Int) (m : Nat) (hv : Valid01 l) : Valid01 (l.take m) :=
  fun q hq => hv q (List.mem_of_mem_take hq)

/-- On valid buffers of at least `m ≥ 1` samples `numEntries` with size `m`
returns the entry count after the first `m` pairs. -/
theorem numEntries_eq_entryAfter_prefix (l1 l2 : List Int) (m : Nat) (hm : 1 ≤ m)
    (h1 : m ≤ l1.length) (h2 : m ≤ l2.length) (hv1 : Valid01 l1) (hv2 : Valid01 l2) :
    numEntries l1 l2 (m : Int) = .ret (entryAfter l1 l2 m).2 := by
  have htake : numEntries l1 l2 (m : Int) = numEntries (l1.take m) (l2.take m) (m : Int) := by
    have hneg : ¬ ((m : Int) < 0) := by omega
    simp only [numEntries, numEntriesRun, if_neg hneg]
    rw [numEntriesLoop_take l1 l2 m _ _ 0 _ (Or.inr (by omega))]
  rw [htake, numEntries_eq_fold (l1.take m) (l2.take m) (m : Int) (by omega)
    (by simp [List.length_take, h1]) (by simp [List.length_take, h2])
    (valid01_take l1 m hv1) (valid01_take l2 m hv2), entryAfter, take_zip]

theorem entrySwitch_count_succ (e : EntryState) (x y c : Int)
    (h : (entrySwitch e x y c).2 = c + 1) : e = .CLEARED_FIRST := by
  cases e <;> simp only [entrySwitch] at h <;> (try split_ifs at h) <;>
    first | rfl | (simp at h)

theorem notBothCleared_step (fwd swp : EntryState) (x y c d : Int)
    (hx : x = 0 ∨ x = 1) (hy : y = 0 ∨ y = 1) (h : NotBothCleared fwd swp) :
    NotBothCleared (entrySwitch fwd x y c).1 (entrySwitch swp y x d).1 := by
  obtain ⟨h1, h2, h3⟩ := h
  rcases hx with rfl | rfl <;> rcases hy with rfl | rfl <;> cases fwd <;> cases swp <;>
    simp [NotBothCleared, entrySwitch] at h1 h2 h3 ⊢

theorem notBothCleared_entryAfter (a b : List Int) (hlen : a.length = b.length)
    (hva : Valid01 a) (hvb : Valid01 b) :
    ∀ j, j ≤ a.length → NotBothCleared (entryAfter a b j).1 (entryAfter b a j).1 := by
  intro j
  induction j with
  | zero => intro _; simp [entryAfter_zero, NotBothCleared]
  | succ j ih =>
    intro hj
    obtain ⟨x, hx, hxv⟩ := valid01_getElem? a hva j (by omega)
    obtain ⟨y, hy, hyv⟩ := valid01_getElem? b hvb j (by omega)
    rw [entryAfter_succ a b j x y hx hy, entryAfter_succ b a j y x hy hx]
    exact notBothCleared_step _ _ x y _ _ hxv hyv (ih (by omega))

/-- C20: on 0/1 traces `a`, `b` of `n` samples and for `1 ≤ m < n`, the four calls
`numEntries(a, b, m)`, `numEntries(a, b, m+1)`, `numEntries(b, a, m)` and
`numEntries(b, a, m+1)` return counts, and it is not the case that both the
entry count and the exit count grow by one on the sample at index `m`: after
`m` samples the forward and the swapped machine are not both in
`CLEARED_FIRST`. -/
theorem numEntries_no_double_count (a b : List Int) (n m : Int)
    (ha : (a.length : Int) = n) (hb : (b.length : Int) = n) (hva : Valid01 a) (hvb : Valid01 b)
    (hm1 : 1 ≤ m) (hmn : m < n) :
    (∃ c c1 d d1 : Int, numEntries a b m = .ret c ∧ numEntries a b (m + 1) = .ret c1 ∧
      numEntries b a m = .ret d ∧ numEntries b a (m + 1) = .ret d1 ∧
      ¬ (c1 = c + 1 ∧ d1 = d + 1)) ∧
    ¬ ((entryAfter a b m.toNat).1 = .CLEARED_FIRST ∧
       (entryAfter b a m.toNat).1 = .CLEARED_FIRST) := by
  obtain ⟨k, rfl⟩ : ∃ k : Nat, m = (k : Int) := ⟨m.toNat, by omega⟩
  have hk1 : 1 ≤ k := by omega
  have hka : k + 1 ≤ a.length := by omega
  have hkb : k + 1 ≤ b.length := by omega
  have hinv := notBothCleared_entryAfter a b (by omega) hva hvb k (by omega)
  obtain ⟨x, hx, hxv⟩ := valid01_getElem? a hva k (by omega)
  obtain ⟨y, hy, hyv⟩ := valid01_getElem? b hvb k (by omega)
  have e1 := numEntries_eq_entryAfter_prefix a b k hk1 (by omega) (by omega) hva hvb
  have e2 := numEntries_eq_entryAfter_prefix a b (k + 1) (by omega) hka hkb hva hvb
  have e3 := numEntries_eq_entryAfter_prefix b a k hk1 (by omega) (by omega) hvb hva
  have e4 := numEntries_eq_entryAfter_prefix b a (k + 1) (by omega) hkb hka hvb hva
  simp only [Nat.cast_add, Nat.cast_one] at e2 e4
  simp only [Int.toNat_ofNat]
  refine ⟨⟨_, _, _, _, e1, e2, e3, e4, ?_⟩, hinv.1⟩
  rintro ⟨hc, hd⟩
  rw [entryAfter_succ a b k x y hx hy] at hc
  rw [entryAfter_succ b a k y x hy hx] at hd
  exact hinv.1 ⟨entrySwitch_count_succ _ _ _ _ hc, entrySwitch_count_succ _ _ _ _ hd⟩

/-- Witness of C20: the sample at index 4 completes an entry and no exit. -/
theorem numEntries_no_double_count_witness :
    (∃ c c1 d d1 : Int, numEntries [1, 0, 0, 1, 1, 1] [1, 1, 0, 0, 1, 1] 4 = .ret c ∧
      numEntries [1, 0, 0, 1, 1, 1] [1, 1, 0, 0, 1, 1] (4 + 1) = .ret c1 ∧
      numEntries [1, 1, 0, 0, 1, 1] [1, 0, 0, 1, 1, 1] 4 = .ret d ∧
      numEntries [1, 1, 0, 0, 1, 1] [1, 0, 0, 1, 1, 1] (4 + 1) = .ret d1 ∧
      ¬ (c1 = c + 1 ∧ d1 = d + 1)) ∧
    ¬ ((entryAfter [1, 0, 0, 1, 1, 1] [1, 1, 0, 0, 1, 1] (4 : Int).toNat).1 = .CLEARED_FIRST ∧
       (entryAfter [1, 1, 0, 0, 1, 1] [1, 0, 0, 1, 1, 1] (4 : Int).toNat).1 = .CLEARED_FIRST) :=
  numEntries_no_double_count [1, 0, 0, 1, 1, 1] [1, 1, 0, 0, 1, 1] 6 4 (by decide) (by decide)
    (by decide) (by decide) (by decide) (by decide)

/-! ## When a blocked run is counted -/

theorem hystFold_zeros_count_accumulating (n : Nat) :
    ∀ S : DebounceState, S.phase = .AccumulatingBlockedRun → S.blockedRun ≤ 10 →
      ((List.replicate n (0 : Int)).foldl (hystStep 10) S).blockedCount
        = S.blockedCount + (if 10 < S.blockedRun + n then 1 else 0) := by
  induction n with
  | zero =>
    intro S _ hbr
    have h : ¬ (10 < S.blockedRun + 0) := by omega
    rw [if_neg h]
    rfl
  | succ n ih =>
    intro S hS hle
    obtain ⟨ph, br, cr, bc, cc⟩ := S
    simp only at hS hle
    subst hS
    rw [List.replicate_succ, List.foldl_cons]
    by_cases hbr : 10 < br + 1
    · have hstep : hystStep 10 ⟨.AccumulatingBlockedRun, br, cr, bc, cc⟩ 0
          = ⟨.ConfirmedBlocked, br + 1, cr, bc + 1, cc⟩ := by simp [hystStep, hbr]
      have hlt : 10 < br + (n + 1) := by omega
      rw [hstep, hystFold_zeros_confirmed n _ rfl]
      simp [hlt]
    · have hstep : hystStep 10 ⟨.AccumulatingBlockedRun, br, cr, bc, cc⟩ 0
          = ⟨.AccumulatingBlockedRun, br + 1, cr, bc, cc⟩ := by simp [hystStep, hbr]
      rw [hstep, ih _ rfl (by dsimp only; omega)]
      dsimp only
      have hiff : (10 < br + 1 + n) ↔ (10 < br + (n + 1)) := by omega
      simp only [hiff]

/-- From the clear side a run of `j` 0s is counted once, and only when it has
at least 11 samples. -/
theorem hystFold_zeros_count_clear (j : Nat) (S : DebounceState)
    (hS : S.phase = .AwaitingFirstRun ∨ S.phase = .ConfirmedClear) :
    ((List.replicate j (0 : Int)).foldl (hystStep 10) S).blockedCount
      = S.blockedCount + (if 11 ≤ j then 1 else 0) := by
  cases j with
  | zero => simp
  | succ n =>
    obtain ⟨ph, br, cr, bc, cc⟩ := S
    have hstep : hystStep 10 ⟨ph, br, cr, bc, cc⟩ 0 = ⟨.AccumulatingBlockedRun, 1, cr, bc, cc⟩ := by
      rcases hS with h | h <;> simp only at h <;> subst h <;> simp [hystStep]
    rw [List.replicate_succ, List.foldl_cons, hstep,
      hystFold_zeros_count_accumulating n _ rfl (by dsimp only; omega)]
    dsimp only
    have hiff : (10 < 1 + n) ↔ (11 ≤ n + 1) := by omega
    simp only [hiff]

/-- From the blocked side a run of 0s is not counted. -/
theorem hystFold_zeros_count_blocked (j : Nat) (S : DebounceState)
    (hS : S.phase = .ConfirmedBlocked ∨ S.phase = .AccumulatingClearRun) :
    ((List.replicate j (0 : Int)).foldl (hystStep 10) S).blockedCount = S.blockedCount := by
  rcases hS with h | h
  · rw [hystFold_zeros_confirmed j S h]
  · cases j with
    | zero => rfl
    | succ n =>
      obtain ⟨ph, br, cr, bc, cc⟩ := S
      simp only at h
      subst h
      have hstep : hystStep 10 ⟨.AccumulatingClearRun, br, cr, bc, cc⟩ 0
          = ⟨.ConfirmedBlocked, br, cr, bc, cc⟩ := by simp [hystStep]
      rw [List.replicate_succ, List.foldl_cons, hstep, hystFold_zeros_confirmed n _ rfl]

theorem not_zero_suffix_cases (pre : List Int) (hv : Valid01 pre)
    (hlast : ¬ ([(0 : Int)] <:+ pre)) : pre = [] ∨ ∃ q, pre = q ++ [1] := by
  rcases List.eq_nil_or_concat pre with h | ⟨q, x, h⟩
  · exact Or.inl h
  · right
    rw [List.concat_eq_append] at h
    subst h
    have hx := hv x (by simp)
    rcases hx with rfl | rfl
    · exact absurd ((replicate_suffix_concat 0 q 0).2 ⟨rfl, List.nil_suffix⟩) hlast
    · exact ⟨q, rfl⟩

/-- After samples that do not end in a 0 the debouncer with hysteresis is
before its first sample, confirmed clear, or accumulating a clear run. -/
theorem hystFold_phase_after_clear (pre : List Int) (hv : Valid01 pre)
    (hlast : ¬ ([(0 : Int)] <:+ pre)) :
    (pre.foldl (hystStep 10) DebounceState.init).phase = .AwaitingFirstRun ∨
    (pre.foldl (hystStep 10) DebounceState.init).phase = .ConfirmedClear ∨
    (pre.foldl (hystStep 10) DebounceState.init).phase = .AccumulatingClearRun := by
  rcases not_zero_suffix_cases pre hv hlast with rfl | ⟨q, rfl⟩
  · exact Or.inl rfl
  · right
    rw [List.foldl_append, List.foldl_cons, List.foldl_nil]
    generalize q.foldl (hystStep 10) DebounceState.init = S
    obtain ⟨ph, br, cr, bc, cc⟩ := S
    have h10 : ¬ ((1 : Int) = 0) := by decide
    cases ph <;> simp only [hystStep, h10, if_false] <;> (try split_ifs) <;> simp

/-- A trace is a part that does not end in a 0, followed by 0s. -/
theorem exists_trailing_zeros (t : List Int) :
    ∃ (pre : List Int) (k : Nat), t = pre ++ List.replicate k 0 ∧ ¬ ([(0 : Int)] <:+ pre) := by
  induction t using List.reverseRecOn with
  | nil => exact ⟨[], 0, rfl, by decide⟩
  | append_singleton q x ih =>
    by_cases hx : x = 0
    · obtain ⟨pre, k, hq, hpre⟩ := ih
      refine ⟨pre, k + 1, ?_, hpre⟩
      rw [hq, hx, List.replicate_succ', List.append_assoc]
    · refine ⟨q ++ [x], 0, by simp, ?_⟩
      intro h
      exact hx ((replicate_suffix_concat 0 q x).1 h).1

theorem zero_suffix_of_long (pre : List Int) (k : Nat) :
    List.replicate (k + 1) (0 : Int) <:+ pre ++ List.replicate k 0 → [(0 : Int)] <:+ pre := by
  induction k with
  | zero => intro h; simpa using h
  | succ k ih =>
    intro h
    rw [List.replicate_succ' k, ← List.append_assoc, replicate_suffix_concat] at h
    exact ih h.2

theorem trailing_zeros_long (pre : List Int) (k : Nat) (hlast : ¬ ([(0 : Int)] <:+ pre))
    (hend : List.replicate 11 (0 : Int) <:+ pre ++ List.replicate k 0) : 11 ≤ k := by
  by_contra hk
  exact hlast (zero_suffix_of_long pre k
    (replicate_suffix_mono (k + 1) 11 (by omega) _ hend))

/-- The count `countZeros` returns on valid samples `pre` followed by `j` 0s,
when the trace is not empty. -/
theorem countZeros_append_zeros (pre : List Int) (j : Nat) (hv : Valid01 pre)
    (hne : pre ≠ [] ∨ 1 ≤ j) :
    countZeros (pre ++ List.replicate j 0) ((pre ++ List.replicate j 0).length : Int)
      = .ret (((List.replicate j (0 : Int)).foldl (hystStep 10)
          (pre.foldl (hystStep 10) DebounceState.init)).blockedCount : Int) := by
  have hlen : 1 ≤ (pre ++ List.replicate j (0 : Int)).length := by
    rw [List.length_append, List.length_replicate]
    rcases hne with h | h
    · have : 1 ≤ pre.length := by
        cases pre with
        | nil => exact absurd rfl h
        | cons x rest => simp
      omega
    · omega
  rw [countZeros_eq_hystDebounce _ _ (by omega) rfl (valid01_append_zeros pre j hv)]
  simp only [hystDebounce, List.foldl_append]

/-- C15, as the claim states it, fails: the valid trace of 11 0s, one 1 and 11
0s ends in 11 consecutive 0s, and its last blocked run is not counted on its
11th sample: the count is 1 before the run, after 10 of its samples and after
all 11. -/
theorem countZeros_run_not_counted_counterexample :
    Valid01 (List.replicate 11 0 ++ [1] ++ List.replicate 11 0) ∧
    List.replicate 11 (0 : Int) <:+ List.replicate 11 0 ++ [1] ++ List.replicate 11 0 ∧
    countZeros (List.replicate 11 0 ++ [1]) 12 = .ret 1 ∧
    countZeros (List.replicate 11 0 ++ [1] ++ List.replicate 10 0) 22 = .ret 1 ∧
    countZeros (List.replicate 11 0 ++ [1] ++ List.replicate 11 0) 23 = .ret 1 := by
  decide

/-- C15, amended: when a non-empty 0/1 trace `t` ends in at least 11 consecutive
0s, appending `m` further 0s leaves the count `c` that `countZeros` returns
unchanged. The trace is `pre` followed by its last run of `k ≥ 11` 0s, `pre` not
ending in a 0. When the two-sided hysteresis filter is clear after `pre`, the run
is counted exactly once, on its 11th sample: the count is `c - 1` on `pre` and on
`pre` followed by 1 to 10 0s, and `c` on `pre` followed by 11 or more 0s. When
the filter is blocked after `pre`, the run is not counted: the count is `c` on
`pre` followed by any number of 0s. -/
theorem countZeros_long_run_counted (t : List Int) (m : Nat) (hne : t ≠ []) (hv : Valid01 t)
    (hend : List.replicate 11 (0 : Int) <:+ t) :
    ∃ c : Int, countZeros t (t.length : Int) = .ret c ∧
      countZeros (t ++ List.replicate m 0) ((t ++ List.replicate m 0).length : Int) = .ret c ∧
      ∃ (pre : List Int) (k : Nat), t = pre ++ List.replicate k 0 ∧ ¬ ([(0 : Int)] <:+ pre) ∧
        11 ≤ k ∧
        (filterBlockedAfter pre = false →
          (pre = [] → c = 1) ∧
          (pre ≠ [] → countZeros pre (pre.length : Int) = .ret (c - 1)) ∧
          (∀ j, 1 ≤ j → j ≤ 10 →
            countZeros (pre ++ List.replicate j 0) ((pre ++ List.replicate j 0).length : Int)
              = .ret (c - 1)) ∧
          (∀ j, 11 ≤ j →
            countZeros (pre ++ List.replicate j 0) ((pre ++ List.replicate j 0).length : Int)
              = .ret c)) ∧
        (filterBlockedAfter pre = true →
          ∀ j, countZeros (pre ++ List.replicate j 0)
            ((pre ++ List.replicate j 0).length : Int) = .ret c) := by
  obtain ⟨c, hc, hcm⟩ := countZeros_append_zeros_eq t m hne hv hend
  refine ⟨c, hc, hcm, ?_⟩
  obtain ⟨pre, k, rfl, hlast⟩ := exists_trailing_zeros t
  have hk := trailing_zeros_long pre k hlast hend
  have hvpre : Valid01 pre := fun q hq => hv q (List.mem_append_left _ hq)
  refine ⟨pre, k, rfl, hlast, hk, ?_, ?_⟩
  · intro hclear
    have hrel := filterRel_fold pre DebounceState.init ⟨false, 0, 0, 0⟩ hvpre
      (by simp [FilterRel, DebounceState.init])
    have hphase : (pre.foldl (hystStep 10) DebounceState.init).phase = .AwaitingFirstRun ∨
        (pre.foldl (hystStep 10) DebounceState.init).phase = .ConfirmedClear := by
      rcases hystFold_phase_after_clear pre hvpre hlast with h | h | h
      · exact Or.inl h
      · exact Or.inr h
      · have hb := hrel.2
        rw [h] at hb
        simp only [filterBlockedAfter] at hclear
        rw [hclear] at hb
        exact absurd hb.1 (by decide)
    have hcount : ∀ j, pre ≠ [] ∨ 1 ≤ j →
        countZeros (pre ++ List.replicate j 0) ((pre ++ List.replicate j 0).length : Int)
          = .ret (((pre.foldl (hystStep 10) DebounceState.init).blockedCount : Int)
              + (if 11 ≤ j then 1 else 0)) := by
      intro j hj
      rw [countZeros_append_zeros pre j hvpre hj, hystFold_zeros_count_clear j _ hphase]
      split_ifs <;> simp
    have hck := hcount k (Or.inr (by omega))
    rw [hc, if_pos hk] at hck
    injection hck with hck
    refine ⟨?_, ?_, ?_, ?_⟩
    · intro hnil
      subst hnil
      rw [hck]
      rfl
    · intro hpne
      have h0 := hcount 0 (Or.inl hpne)
      simp only [List.replicate_zero, List.append_nil] at h0
      rw [h0, hck]
      congr 1
      simp
    · intro j hj1 hj10
      have hnot : ¬ (11 ≤ j) := by omega
      rw [hcount j (Or.inr hj1), if_neg hnot, hck]
      congr 1
      simp
    · intro j hj
      rw [hcount j (Or.inr (by omega)), if_pos hj, hck]
  · intro hblocked
    have hrel := filterRel_fold pre DebounceState.init ⟨false, 0, 0, 0⟩ hvpre
      (by simp [FilterRel, DebounceState.init])
    have hphase : (pre.foldl (hystStep 10) DebounceState.init).phase = .ConfirmedBlocked ∨
        (pre.foldl (hystStep 10) DebounceState.init).phase = .AccumulatingClearRun := by
      simp only [filterBlockedAfter] at hblocked
      have hb := hrel.2
      rcases hystFold_phase_after_clear pre hvpre hlast with h | h | h
      · rw [h] at hb
        rw [hblocked] at hb
        exact absurd hb.1 (by decide)
      · rw [h] at hb
        rw [hblocked] at hb
        exact absurd hb.1 (by decide)
      · exact Or.inr h
    have hpne : pre ≠ [] := by
      intro hnil
      subst hnil
      exact absurd hblocked (by decide)
    have hcount : ∀ j,
        countZeros (pre ++ List.replicate j 0) ((pre ++ List.replicate j 0).length : Int)
          = .ret ((pre.foldl (hystStep 10) DebounceState.init).blockedCount : Int) := by
      intro j
      rw [countZeros_append_zeros pre j hvpre (Or.inl hpne),
        hystFold_zeros_count_blocked j _ hphase]
    have hck := hcount k
    rw [hc] at hck
    injection hck with hck
    intro j
    rw [hcount j, hck]

/-- Witness of C15 amended: a clear sample and 11 0s, and three more 0s. -/
theorem countZeros_long_run_counted_witness :
    ∃ c : Int, countZeros ([1] ++ List.replicate 11 0)
        (([1] ++ List.replicate 11 0 : List Int).length : Int) = .ret c ∧
      countZeros (([1] ++ List.replicate 11 0) ++ List.replicate 3 0)
        ((([1] ++ List.replicate 11 0) ++ List.replicate 3 0 : List Int).length : Int) = .ret c ∧
      ∃ (pre : List Int) (k : Nat), [1] ++ List.replicate 11 0 = pre ++ List.replicate k 0 ∧
        ¬ ([(0 : Int)] <:+ pre) ∧ 11 ≤ k ∧
        (filterBlockedAfter pre = false →
          (pre = [] → c = 1) ∧
          (pre ≠ [] → countZeros pre (pre.length : Int) = .ret (c - 1)) ∧
          (∀ j, 1 ≤ j → j ≤ 10 →
            countZeros (pre ++ List.replicate j 0) ((pre ++ List.replicate j 0).length : Int)
              = .ret (c - 1)) ∧
          (∀ j, 11 ≤ j →
            countZeros (pre ++ List.replicate j 0) ((pre ++ List.replicate j 0).length : Int)
              = .ret c)) ∧
        (filterBlockedAfter pre = true →
          ∀ j, countZeros (pre ++ List.replicate j 0)
            ((pre ++ List.replicate j 0).length : Int) = .ret c) :=
  countZeros_long_run_counted ([1] ++ List.replicate 11 0) 3 (by decide) (by decide) (by decide)

end PiLasers
